import Mathlib

/-!
Verification of the chunk-allocated doubly linked list from `Darksonn/rust-linked-list`
(`src/lib.rs`, `src/cursor.rs`, `src/iter.rs`).

The pointer graph is embedded as an arena: a list of node slots indexed by `Nat`,
where a raw pointer is `Option Nat` (`none` models a null pointer).  Nodes are
never moved once allocated (the arena only grows), mirroring the pointer-stability
guarantee of the Rust code.  The unused-node free list, the chunk bookkeeping
(`allocations`, `capacity`, `chunk_size`) and every operation are transcribed
directly from the source; loops are given explicit fuel chosen so that, on
well-formed states, they run exactly as long as the source loops do.
-/

namespace RustLL

/-- A node slot in the arena, mirroring `LinkedNode<T>`: nullable `next`/`prev`
pointers and the stored value.  A slot that was never initialised holds `default`. -/
structure LinkedNode (T : Type) where
  next : Option Nat
  prev : Option Nat
  value : T
deriving DecidableEq, Repr

/-- The list aggregate, mirroring `LinkedList<T>`.  `nodes` is the arena backing
every slot ever allocated; `capacity` counts the slots (the model's allocator
grants exactly the requested amount); `allocations` records `(base, count)` of
each chunk; `unused_nodes` heads the singly linked free list. -/
structure LinkedList (T : Type) where
  nodes : List (LinkedNode T)
  head : Option Nat
  tail : Option Nat
  len : Nat
  capacity : Nat
  chunk_size : Nat
  allocations : List (Nat × Nat)
  unused_nodes : Option Nat
deriving DecidableEq, Repr

variable {T : Type} [Inhabited T]

/-- Default slot contents for memory that was never written. -/
def dfltNode : LinkedNode T := ⟨none, none, default⟩

/-- Read the slot at index `i` (out-of-range reads return the default slot;
well-formed states never perform them). -/
def getN (ns : List (LinkedNode T)) (i : Nat) : LinkedNode T := (ns[i]?).getD dfltNode

/-- The `next` pointer of slot `i`. -/
def nextOf (ns : List (LinkedNode T)) (i : Nat) : Option Nat := (getN ns i).next

/-- The `prev` pointer of slot `i`. -/
def prevOf (ns : List (LinkedNode T)) (i : Nat) : Option Nat := (getN ns i).prev

/-- The value stored in slot `i`. -/
def valOf (ns : List (LinkedNode T)) (i : Nat) : T := (getN ns i).value

/-- Overwrite slot `i` entirely (`ptr::write` of a whole node). -/
def setN (ns : List (LinkedNode T)) (i : Nat) (nd : LinkedNode T) : List (LinkedNode T) :=
  ns.set i nd

/-- Assign `(*i).next = p`. -/
def setNext (ns : List (LinkedNode T)) (i : Nat) (p : Option Nat) : List (LinkedNode T) :=
  ns.set i { getN ns i with next := p }

/-- Assign `(*i).prev = p`. -/
def setPrev (ns : List (LinkedNode T)) (i : Nat) (p : Option Nat) : List (LinkedNode T) :=
  ns.set i { getN ns i with prev := p }

/-- Assign `(*i).value = v` (`ptr::write` of the value field). -/
def setVal (ns : List (LinkedNode T)) (i : Nat) (v : T) : List (LinkedNode T) :=
  ns.set i { getN ns i with value := v }

namespace LinkedList

/-- `LinkedList::new()`: empty list, chunk size 64. -/
def new : LinkedList T :=
  { nodes := [], head := none, tail := none, len := 0, capacity := 0,
    chunk_size := 64, allocations := [], unused_nodes := none }

/-- The inner loop of `allocate`: `for i in (0..capacity).rev()` pushes the fresh
slots `base..base+count-1` onto the free list in reverse order. -/
def allocLink (base : Nat) : Nat → LinkedList T → LinkedList T
  | 0, l => l
  | k + 1, l =>
    allocLink base k
      { l with nodes := setNext l.nodes (base + k) l.unused_nodes,
               unused_nodes := some (base + k) }

/-- `LinkedList::allocate(amount)`: no-op on `0`, otherwise appends one chunk of
exactly `amount` fresh slots to the arena, records the chunk, adds to `capacity`
and threads the new slots onto the free list front in ascending-address order. -/
def allocate (amount : Nat) (l : LinkedList T) : LinkedList T :=
  if amount = 0 then l
  else
    let base := l.nodes.length
    allocLink base amount
      { l with nodes := l.nodes ++ List.replicate amount dfltNode,
               capacity := l.capacity + amount,
               allocations := l.allocations ++ [(base, amount)] }

/-- `LinkedList::new_node(next, prev, value)`: grow by one chunk if the free list
is empty, pop its head slot and initialise it.  The `none` fallback models the
null-dereference the source would perform with `chunk_size == 0`; it is
unreachable on well-formed states. -/
def new_node (nx pv : Option Nat) (v : T) (l : LinkedList T) : Nat × LinkedList T :=
  let l := if l.unused_nodes = none then allocate l.chunk_size l else l
  match l.unused_nodes with
  | none => (0, l)
  | some node =>
    (node, { l with unused_nodes := nextOf l.nodes node,
                    nodes := setN l.nodes node ⟨nx, pv, v⟩ })

/-- `LinkedList::discard_node(node)`: push the slot onto the free-list head. -/
def discard_node (node : Nat) (l : LinkedList T) : LinkedList T :=
  { l with nodes := setNext l.nodes node l.unused_nodes, unused_nodes := some node }

/-- `LinkedList::push_back(value)`. -/
def push_back (v : T) (l : LinkedList T) : LinkedList T :=
  let tl := l.tail
  let (node, l) := new_node none tl v l
  let l := if l.head = none then { l with head := some node } else l
  let l := match tl with
    | none => l
    | some t => { l with nodes := setNext l.nodes t (some node) }
  { l with tail := some node, len := l.len + 1 }

/-- `LinkedList::push_front(value)`. -/
def push_front (v : T) (l : LinkedList T) : LinkedList T :=
  let hd := l.head
  let (node, l) := new_node hd none v l
  let l := if l.tail = none then { l with tail := some node } else l
  let l := match hd with
    | none => l
    | some h => { l with nodes := setPrev l.nodes h (some node) }
  { l with head := some node, len := l.len + 1 }

/-- `LinkedList::pop_back()`: returns the removed value (if any) and the new state. -/
def pop_back (l : LinkedList T) : Option T × LinkedList T :=
  match l.tail with
  | none => (none, l)
  | some t =>
    let l' := { l with tail := prevOf l.nodes t }
    let l' := if l'.head = some t then { l' with head := none } else l'
    let l' := { l' with len := l'.len - 1 }
    let v := valOf l'.nodes t
    (some v, discard_node t l')

/-- `LinkedList::pop_front()`. -/
def pop_front (l : LinkedList T) : Option T × LinkedList T :=
  match l.head with
  | none => (none, l)
  | some h =>
    let l' := { l with head := nextOf l.nodes h }
    let l' := if l'.tail = some h then { l' with tail := none } else l'
    let l' := { l' with len := l'.len - 1 }
    let v := valOf l'.nodes h
    (some v, discard_node h l')

end LinkedList

/-- Mutable state threaded through the `retain_map` loop: the arena, the
free-list head, the walk pointer `ptr`, the last retained node, the head of the
rebuilt chain, the retained count, and the caller's closure state (the Rust
closure is `FnMut`, so it carries state of some type `S`). -/
structure RetainSt (T S : Type) where
  nodes : List (LinkedNode T)
  unused : Option Nat
  ptr : Option Nat
  last_retain : Option Nat
  new_head : Option Nat
  retained : Nat
  s : S

namespace LinkedList

/-- The `while !ptr.is_null()` loop of `retain_map`, with explicit fuel.  On a
well-formed list the walk follows the original chain, so fuel `len` makes the
model run exactly as long as the source loop. -/
def retainLoop {S : Type} (f : S → T → S × Option T) :
    Nat → RetainSt T S → RetainSt T S
  | 0, st => st
  | fuel + 1, st =>
    match st.ptr with
    | none => st
    | some p =>
      let v := valOf st.nodes p
      let next_ptr := nextOf st.nodes p
      let (s', r) := f st.s v
      match r with
      | some w =>
        let ns := setVal st.nodes p w
        let ns := match st.last_retain with
          | none => ns
          | some lr => setNext ns lr (some p)
        let nh := if st.last_retain = none then some p else st.new_head
        let ns := setPrev ns p st.last_retain
        retainLoop f fuel
          { nodes := ns, unused := st.unused, ptr := next_ptr,
            last_retain := some p, new_head := nh,
            retained := st.retained + 1, s := s' }
      | none =>
        retainLoop f fuel
          { nodes := setNext st.nodes p st.unused, unused := some p,
            ptr := next_ptr, last_retain := st.last_retain,
            new_head := st.new_head, retained := st.retained, s := s' }

/-- `LinkedList::retain_map(f)` with a stateful closure `f : S → T → S × Option T`
(state `s0` mirrors the environment a Rust `FnMut` closure captures).  Returns
the new list and the closure's final state.  As in the source, the list is
logically emptied before the loop (`capacity -= self.len` runs after `len` was
zeroed, so it subtracts nothing) and rebuilt from the loop results afterwards. -/
def retain_map {S : Type} (f : S → T → S × Option T) (s0 : S) (l : LinkedList T) :
    LinkedList T × S :=
  if l.len = 0 then (l, s0)
  else
    let capacity := l.capacity
    let l0 := { l with head := none, tail := none, len := 0,
                       capacity := l.capacity - 0 }
    let st := retainLoop f l.len
      { nodes := l0.nodes, unused := l0.unused_nodes, ptr := l.head,
        last_retain := none, new_head := none, retained := 0, s := s0 }
    ({ l0 with nodes := st.nodes, unused_nodes := st.unused,
               head := st.new_head, tail := st.last_retain,
               len := st.retained, capacity := capacity }, st.s)

/-- `LinkedList::retain(f)` for a stateless predicate, via `retain_map` as in the
source. -/
def retain (f : T → Bool) (l : LinkedList T) : LinkedList T :=
  (retain_map (fun (u : Unit) v => (u, if f v then some v else none)) () l).1

/-- Shift a node's pointers by `s` (renaming of arena addresses used when two
arenas are merged by `append`). -/
def shiftNode (s : Nat) (nd : LinkedNode T) : LinkedNode T :=
  { nd with next := nd.next.map (· + s), prev := nd.prev.map (· + s) }

/-- The `while !(*ptr).next.is_null()` walk of `combine_unused_nodes`: returns the
last node of the free chain starting at `p` together with the number of nodes
visited.  Fuel bounds the walk; on well-formed states it never runs out. -/
def walkLast (ns : List (LinkedNode T)) : Nat → Nat → Nat × Nat
  | 0, p => (p, 1)
  | fuel + 1, p =>
    match nextOf ns p with
    | none => (p, 1)
    | some nx =>
      let (last, cnt) := walkLast ns fuel nx
      (last, cnt + 1)

/-- `LinkedList::combine_unused_nodes(other)` on the merged arena `ns`: swap the
free-list heads when the (post-merge) bookkeeping says `self` has fewer free
slots, then walk `other`'s free list to its end and splice it in front of
`self`'s.  Returns the new arena, the new free-list head, and the number of
free-list nodes the walk visited. -/
def combine_unused_nodes (ns : List (LinkedNode T)) (cap len : Nat)
    (selfUnused : Option Nat) (otherCap otherLen : Nat) (otherUnused : Option Nat) :
    List (LinkedNode T) × Option Nat × Nat :=
  let pr :=
    if cap - len < otherCap - otherLen then (otherUnused, selfUnused)
    else (selfUnused, otherUnused)
  match pr.2 with
  | none => (ns, pr.1, 0)
  | some p =>
    let (last, cnt) := walkLast ns ns.length p
    (setNext ns last pr.1, some p, cnt)

/-- The chain-splice block at the top of `LinkedList::append(other)` (the
`if self.is_empty() ... else if other.is_empty() ... else ...` pointer
surgery), on the merged arena.  The two arenas are merged by renaming `other`'s
slots upward by `self.nodes.length` — addresses are abstract, so this renaming
models the two lists living in one address space.  Returns the arena after the
splice together with the new `head`, `tail` and `len`. -/
def appendSplice (a b : LinkedList T) :
    List (LinkedNode T) × Option Nat × Option Nat × Nat :=
  let s := a.nodes.length
  let ns := a.nodes ++ b.nodes.map (shiftNode s)
  let bhead := b.head.map (· + s)
  let btail := b.tail.map (· + s)
  if a.len = 0 then (ns, bhead, btail, b.len)
  else if b.len = 0 then (ns, a.head, a.tail, a.len)
  else
    let ns := match a.tail with
      | none => ns
      | some t => setNext ns t bhead
    let ns := match bhead with
      | none => ns
      | some h => setPrev ns h a.tail
    (ns, a.head, btail, a.len + b.len)

/-- `LinkedList::append(other)`: chain splice (`appendSplice`), allocation-list
merge, capacity transfer and `combine_unused_nodes`, transcribed from the
source.  Returns `(new self, new other, free-list nodes traversed by
combine_unused_nodes)`. -/
def append (a b : LinkedList T) : LinkedList T × LinkedList T × Nat :=
  let s := a.nodes.length
  let bunused := b.unused_nodes.map (· + s)
  let ballocs := b.allocations.map (fun pr => (pr.1 + s, pr.2))
  -- chain splice (the inline `if self.is_empty() ... else ...` block of the
  -- source, factored into `appendSplice` above)
  let spliced := appendSplice a b
  -- move allocations: extend the longer with the shorter
  let allocs :=
    if a.allocations.length < ballocs.length then ballocs ++ a.allocations
    else a.allocations ++ ballocs
  -- move unused capacity, then combine_unused_nodes
  let cap := a.capacity + b.capacity
  let combined :=
    combine_unused_nodes spliced.1 cap spliced.2.2.2 a.unused_nodes
      b.capacity b.len bunused
  let a' : LinkedList T :=
    { nodes := combined.1, head := spliced.2.1, tail := spliced.2.2.1,
      len := spliced.2.2.2, capacity := cap, chunk_size := a.chunk_size,
      allocations := allocs, unused_nodes := combined.2.1 }
  let b' : LinkedList T :=
    { nodes := [], head := none, tail := none, len := 0, capacity := 0,
      chunk_size := b.chunk_size, allocations := [], unused_nodes := none }
  (a', b', combined.2.2)

/-- `LinkedList::cursor_mut_front()`: the front node together with index 0. -/
def cursor_mut_front (l : LinkedList T) : Option (Nat × Nat) :=
  match l.head with
  | none => none
  | some h => some (h, 0)

/-- `LinkedList::cursor_mut_back()`: the tail node together with index `len - 1`. -/
def cursor_mut_back (l : LinkedList T) : Option (Nat × Nat) :=
  match l.tail with
  | none => none
  | some t => some (t, l.len - 1)

end LinkedList

namespace LinkedList

/-- `LinkedList::with_capacity(cap)`: one up-front allocation of `cap` slots. -/
def with_capacity (cap : Nat) : LinkedList T := allocate cap (new : LinkedList T)

/-- `LinkedList::set_chunk_size(n)` (the source asserts `n > 0`; callers of the
model are expected to respect that). -/
def set_chunk_size (n : Nat) (l : LinkedList T) : LinkedList T := { l with chunk_size := n }

end LinkedList

namespace CursorMut

open LinkedList

/-- `CursorMut::insert_next(value)` at cursor node `c`: splice a fresh node after
`c`.  The cursor itself (node and index) is unchanged by the source, so only the
list is returned. -/
def insert_next (l : LinkedList T) (c : Nat) (v : T) : LinkedList T :=
  let nextnext := nextOf l.nodes c
  let (node, l) := new_node nextnext (some c) v l
  let l := { l with len := l.len + 1 }
  let l := { l with nodes := setNext l.nodes c (some node) }
  match nextnext with
  | none => { l with tail := some node }
  | some nn => { l with nodes := setPrev l.nodes nn (some node) }

/-- `CursorMut::insert_prev(value)` at cursor node `c` and index `i`: splice a
fresh node before `c`.  Returns the list and the cursor's new index (`i + 1`). -/
def insert_prev (l : LinkedList T) (c : Nat) (i : Nat) (v : T) : LinkedList T × Nat :=
  let prevprev := prevOf l.nodes c
  let (node, l) := new_node (some c) prevprev v l
  let i := i + 1
  let l := { l with len := l.len + 1 }
  let l := { l with nodes := setPrev l.nodes c (some node) }
  match prevprev with
  | none => ({ l with head := some node }, i)
  | some pp => ({ l with nodes := setNext l.nodes pp (some node) }, i)

/-- Shared unlinking part of `CursorMut::remove*`: unlink node `c`, read its
value, discard the slot, decrement `len`. -/
def removeCore (l : LinkedList T) (c : Nat) : T × LinkedList T :=
  let pv := prevOf l.nodes c
  let nx := nextOf l.nodes c
  let l := match pv with
    | none => { l with head := nx }
    | some p => { l with nodes := setNext l.nodes p nx }
  let l := match nx with
    | none => { l with tail := pv }
    | some n => { l with nodes := setPrev l.nodes n pv }
  let v := valOf l.nodes c
  let l := discard_node c l
  (v, { l with len := l.len - 1 })

/-- `CursorMut::remove()`. -/
def remove (l : LinkedList T) (c : Nat) : T × LinkedList T := removeCore l c

/-- `CursorMut::remove_go_next()` at cursor `(c, i)`: remove and return a cursor
at the next neighbour (index unchanged), or `none` when the removed node had no
next neighbour. -/
def remove_go_next (l : LinkedList T) (c : Nat) (i : Nat) :
    T × Option (Nat × Nat) × LinkedList T :=
  let nx := nextOf l.nodes c
  let (v, l') := removeCore l c
  match nx with
  | none => (v, none, l')
  | some n => (v, some (n, i), l')

/-- `CursorMut::remove_go_prev()` at cursor `(c, i)`: as in the source, the
returned cursor wraps the raw `prev` pointer (possibly null) and index `i - 1`,
and `none` is returned exactly when the *next* pointer is null. -/
def remove_go_prev (l : LinkedList T) (c : Nat) (i : Nat) :
    T × Option (Option Nat × Nat) × LinkedList T :=
  let pv := prevOf l.nodes c
  let nx := nextOf l.nodes c
  let (v, l') := removeCore l c
  match nx with
  | none => (v, none, l')
  | some _ => (v, some (pv, i - 1), l')

end CursorMut

/-- Iterator state, mirroring `Iter`/`IterMut`/`IntoIter`: a `(head, tail, len)`
snapshot (the arena is passed to each operation). -/
structure IterSt (T : Type) where
  head : Option Nat
  tail : Option Nat
  len : Nat
deriving DecidableEq, Repr

namespace IterSt

open LinkedList

/-- `LinkedList::iter()`: snapshot of head, tail and length. -/
def iterOf (l : LinkedList T) : IterSt T := ⟨l.head, l.tail, l.len⟩

/-- `Iter::next()`: consume from the head side.  The `none` head with positive
`len` (impossible on well-formed states, `debug_assert`ed in the source) yields
nothing. -/
def next (ns : List (LinkedNode T)) (st : IterSt T) : Option T × IterSt T :=
  if 0 < st.len then
    match st.head with
    | none => (none, st)
    | some h => (some (valOf ns h), ⟨nextOf ns h, st.tail, st.len - 1⟩)
  else (none, st)

/-- `Iter::next_back()`: consume from the tail side. -/
def next_back (ns : List (LinkedNode T)) (st : IterSt T) : Option T × IterSt T :=
  if 0 < st.len then
    match st.tail with
    | none => (none, st)
    | some t => (some (valOf ns t), ⟨st.head, prevOf ns t, st.len - 1⟩)
  else (none, st)

/-- `Iter::count()`: the stored remaining count, no traversal. -/
def count (st : IterSt T) : Nat := st.len

/-- `Iter::last()`: the tail snapshot's value when anything remains, no traversal. -/
def last (ns : List (LinkedNode T)) (st : IterSt T) : Option T :=
  if 0 < st.len then
    match st.tail with
    | none => none
    | some t => some (valOf ns t)
  else none

/-- Run a sequence of iterator commands (`true` = `next()`, `false` =
`next_back()`), collecting each call's result. -/
def run (ns : List (LinkedNode T)) : List Bool → IterSt T → IterSt T × List (Option T)
  | [], st => (st, [])
  | c :: cs, st =>
    let (o, st') := if c then next ns st else next_back ns st
    let (stF, os) := run ns cs st'
    (stF, o :: os)

end IterSt

/-- Walk `k` steps from pointer `p` along `next`, collecting values: the
abstraction function from a list state to its element sequence (the walk length
is the stored `len`, exactly how the iterators traverse). -/
def walkN (ns : List (LinkedNode T)) : Option Nat → Nat → List T
  | _, 0 => []
  | none, _ + 1 => []
  | some i, k + 1 => valOf ns i :: walkN ns (nextOf ns i) k

/-- The element sequence of a list: `len` steps from `head` along `next`. -/
def seqOf (l : LinkedList T) : List T := walkN l.nodes l.head l.len

/-- Collect the distinct slots reachable from pointer `p` along `next`, stopping
at null, on a revisit, or when fuel runs out. -/
def freeReachAux (ns : List (LinkedNode T)) : Nat → List Nat → Option Nat → List Nat
  | 0, seen, _ => seen.reverse
  | _ + 1, seen, none => seen.reverse
  | fuel + 1, seen, some i =>
    if i ∈ seen then seen.reverse
    else freeReachAux ns fuel (i :: seen) (nextOf ns i)

/-- The slots reachable from the free-list head along `next` (fuel
`nodes.length + 1` suffices to expose any cycle). -/
def freeReachable (l : LinkedList T) : List Nat :=
  freeReachAux l.nodes (l.nodes.length + 1) [] l.unused_nodes

section ReferenceModels

/-- One deque operation, for the refinement claim. -/
inductive DeqOp (T : Type) where
  | pushB (v : T)
  | pushF (v : T)
  | popB
  | popF
deriving DecidableEq, Repr

open LinkedList in
/-- Execute one operation on the linked list, returning the popped value (pushes
return `none`). -/
def execOp (l : LinkedList T) : DeqOp T → LinkedList T × Option T
  | .pushB v => (push_back v l, none)
  | .pushF v => (push_front v l, none)
  | .popB => let p := pop_back l; (p.2, p.1)
  | .popF => let p := pop_front l; (p.2, p.1)

/-- Execute a sequence of operations, recording each step's popped value and the
`len()` after the step. -/
def execOps : LinkedList T → List (DeqOp T) → LinkedList T × List (Option T × Nat)
  | l, [] => (l, [])
  | l, op :: ops =>
    let (l', r) := execOp l op
    let (lF, tr) := execOps l' ops
    (lF, (r, l'.len) :: tr)

/-- Modelled from the spec: the reference deque (`§8`: "matches a reference deque
implementation step-by-step") — a plain list of elements with pushes and pops at
either end. -/
def modelOp (m : List T) : DeqOp T → List T × Option T
  | .pushB v => (m ++ [v], none)
  | .pushF v => (v :: m, none)
  | .popB => (m.dropLast, m.getLast?)
  | .popF => (m.tail, m.head?)

/-- Modelled from the spec: run the reference deque over a sequence of
operations, recording each step's popped value and length. -/
def modelOps : List T → List (DeqOp T) → List T × List (Option T × Nat)
  | m, [] => (m, [])
  | m, op :: ops =>
    let (m', r) := modelOp m op
    let (mF, tr) := modelOps m' ops
    (mF, (r, m'.length) :: tr)

/-- The specification of `retain_map` on the element sequence: thread the
closure state left-to-right, keep the replacement values. -/
def retainSpec {S : Type} (f : S → T → S × Option T) : S → List T → S × List T
  | s, [] => (s, [])
  | s, v :: vs =>
    let (s', r) := f s v
    let (sF, rest) := retainSpec f s' vs
    (sF, match r with | some w => w :: rest | none => rest)

/-- One step of the reference two-ended consumer for the iterator claim:
`true` pops the front of the remaining sequence, `false` pops the back. -/
def specStep (vs : List T) (front : Bool) : List T × Option T :=
  if front then (vs.tail, vs.head?) else (vs.dropLast, vs.getLast?)

/-- Run the reference two-ended consumer over a command sequence, returning the
remaining sequence and the outputs. -/
def specRun : List Bool → List T → List T × List (Option T)
  | [], vs => (vs, [])
  | c :: cs, vs =>
    let (vs', o) := specStep vs c
    let (vsF, os) := specRun cs vs'
    (vsF, o :: os)

end ReferenceModels

/-! ## Well-formedness

A live chain is witnessed by the list `is` of its slot indices, a free list by
the list `fs` of its slot indices.  `isSeg ns pv p is qv q` says: starting at
pointer `p` with the previous node being `pv`, the doubly linked segment visits
exactly `is`, after which the "previous" pointer is `qv` (the segment's last
node, or `pv` if `is = []`) and the running pointer is `q`.  `isFreeSeg` is the
singly linked (`next`-only) analogue. -/

/-- Singly linked (`next`-threaded) segment from pointer `p` through exactly the
slots `is`, ending with pointer `q`. -/
def isFreeSeg (ns : List (LinkedNode T)) : Option Nat → List Nat → Option Nat → Prop
  | p, [], q => p = q
  | p, i :: is, q => p = some i ∧ i < ns.length ∧ isFreeSeg ns (nextOf ns i) is q

/-- Doubly linked segment: from pointer `p` whose predecessor is `pv`, through
exactly the slots `is` (each node's `prev` pointing at its predecessor), ending
with predecessor pointer `qv` and running pointer `q`. -/
def isSeg (ns : List (LinkedNode T)) :
    Option Nat → Option Nat → List Nat → Option Nat → Option Nat → Prop
  | pv, p, [], qv, q => pv = qv ∧ p = q
  | pv, p, i :: is, qv, q =>
    p = some i ∧ i < ns.length ∧ prevOf ns i = pv ∧ isSeg ns (some i) (nextOf ns i) is qv q

instance decIsFreeSeg (ns : List (LinkedNode T)) :
    ∀ (p : Option Nat) (is : List Nat) (q : Option Nat), Decidable (isFreeSeg ns p is q)
  | p, [], q => decidable_of_iff (p = q) (by simp [isFreeSeg])
  | p, i :: is, q =>
    haveI := decIsFreeSeg ns (nextOf ns i) is q
    decidable_of_iff (p = some i ∧ i < ns.length ∧ isFreeSeg ns (nextOf ns i) is q)
      (by simp [isFreeSeg])

instance decIsSeg (ns : List (LinkedNode T)) :
    ∀ (pv p : Option Nat) (is : List Nat) (qv q : Option Nat), Decidable (isSeg ns pv p is qv q)
  | pv, p, [], qv, q => decidable_of_iff (pv = qv ∧ p = q) (by simp [isSeg])
  | pv, p, i :: is, qv, q =>
    haveI := decIsSeg ns (some i) (nextOf ns i) is qv q
    decidable_of_iff
      (p = some i ∧ i < ns.length ∧ prevOf ns i = pv ∧ isSeg ns (some i) (nextOf ns i) is qv q)
      (by simp [isSeg])

/-- Full well-formedness of a list state, witnessed by the live-chain indices
`is` and free-list indices `fs`: the live chain runs `head` to `tail` with null
boundary links, the free list runs from `unused_nodes` to null, no slot is in
two places, every slot is accounted for, and the bookkeeping fields agree. -/
def WfWith (l : LinkedList T) (is fs : List Nat) : Prop :=
  isSeg l.nodes none l.head is l.tail none ∧
  isFreeSeg l.nodes l.unused_nodes fs none ∧
  (is ++ fs).Nodup ∧
  is.length + fs.length = l.nodes.length ∧
  l.len = is.length ∧
  l.capacity = l.nodes.length ∧
  0 < l.chunk_size

instance (l : LinkedList T) (is fs : List Nat) : Decidable (WfWith l is fs) := by
  unfold WfWith; infer_instance

/-- A list state is well-formed if some witness lists exist. -/
def Wf (l : LinkedList T) : Prop := ∃ is fs, WfWith l is fs

/-! ### Arena access lemmas -/

theorem getN_set_ne (ns : List (LinkedNode T)) (j : Nat) (nd : LinkedNode T) {i : Nat}
    (h : j ≠ i) : getN (ns.set j nd) i = getN ns i := by
  simp [getN, List.getElem?_set_ne h]

theorem getN_set_self (ns : List (LinkedNode T)) {j : Nat} (nd : LinkedNode T)
    (h : j < ns.length) : getN (ns.set j nd) j = nd := by
  simp [getN, List.getElem?_set_eq_of_lt nd h]

theorem getN_append_left (ns ms : List (LinkedNode T)) {i : Nat} (h : i < ns.length) :
    getN (ns ++ ms) i = getN ns i := by
  simp [getN, List.getElem?_append, if_pos h]

theorem getN_append_right (ns ms : List (LinkedNode T)) {i : Nat} (h : ns.length ≤ i) :
    getN (ns ++ ms) i = getN ms (i - ns.length) := by
  simp [getN, List.getElem?_append, if_neg (by omega : ¬ i < ns.length)]

theorem length_setNext (ns : List (LinkedNode T)) (j : Nat) (p : Option Nat) :
    (setNext ns j p).length = ns.length := by simp [setNext]

theorem length_setPrev (ns : List (LinkedNode T)) (j : Nat) (p : Option Nat) :
    (setPrev ns j p).length = ns.length := by simp [setPrev]

theorem length_setVal (ns : List (LinkedNode T)) (j : Nat) (v : T) :
    (setVal ns j v).length = ns.length := by simp [setVal]

omit [Inhabited T] in
theorem length_setN (ns : List (LinkedNode T)) (j : Nat) (nd : LinkedNode T) :
    (setN ns j nd).length = ns.length := by simp [setN]

omit [Inhabited T] in
theorem set_oob (ns : List (LinkedNode T)) (j : Nat) (nd : LinkedNode T)
    (h : ns.length ≤ j) : ns.set j nd = ns := List.set_eq_of_length_le h

theorem getN_setNext_ne (ns : List (LinkedNode T)) (j : Nat) (p : Option Nat) {i : Nat}
    (h : j ≠ i) : getN (setNext ns j p) i = getN ns i := getN_set_ne ns j _ h

theorem getN_setPrev_ne (ns : List (LinkedNode T)) (j : Nat) (p : Option Nat) {i : Nat}
    (h : j ≠ i) : getN (setPrev ns j p) i = getN ns i := getN_set_ne ns j _ h

theorem getN_setVal_ne (ns : List (LinkedNode T)) (j : Nat) (v : T) {i : Nat}
    (h : j ≠ i) : getN (setVal ns j v) i = getN ns i := getN_set_ne ns j _ h

theorem getN_setN_ne (ns : List (LinkedNode T)) (j : Nat) (nd : LinkedNode T) {i : Nat}
    (h : j ≠ i) : getN (setN ns j nd) i = getN ns i := getN_set_ne ns j _ h

theorem getN_setNext_self (ns : List (LinkedNode T)) {j : Nat} (p : Option Nat)
    (h : j < ns.length) : getN (setNext ns j p) j = { getN ns j with next := p } :=
  getN_set_self ns _ h

theorem getN_setPrev_self (ns : List (LinkedNode T)) {j : Nat} (p : Option Nat)
    (h : j < ns.length) : getN (setPrev ns j p) j = { getN ns j with prev := p } :=
  getN_set_self ns _ h

theorem getN_setVal_self (ns : List (LinkedNode T)) {j : Nat} (v : T)
    (h : j < ns.length) : getN (setVal ns j v) j = { getN ns j with value := v } :=
  getN_set_self ns _ h

theorem getN_setN_self (ns : List (LinkedNode T)) {j : Nat} (nd : LinkedNode T)
    (h : j < ns.length) : getN (setN ns j nd) j = nd := getN_set_self ns _ h

/-- `setNext` leaves every `prev` field unchanged. -/
theorem prevOf_setNext (ns : List (LinkedNode T)) (j : Nat) (p : Option Nat) (i : Nat) :
    prevOf (setNext ns j p) i = prevOf ns i := by
  rcases eq_or_ne j i with rfl | h
  · by_cases hj : j < ns.length
    · simp [prevOf, getN_setNext_self ns p hj]
    · simp [prevOf, setNext, set_oob ns j _ (by omega)]
  · simp [prevOf, getN_setNext_ne ns j p h]

/-- `setNext` leaves every value unchanged. -/
theorem valOf_setNext (ns : List (LinkedNode T)) (j : Nat) (p : Option Nat) (i : Nat) :
    valOf (setNext ns j p) i = valOf ns i := by
  rcases eq_or_ne j i with rfl | h
  · by_cases hj : j < ns.length
    · simp [valOf, getN_setNext_self ns p hj]
    · simp [valOf, setNext, set_oob ns j _ (by omega)]
  · simp [valOf, getN_setNext_ne ns j p h]

/-- `setPrev` leaves every `next` field unchanged. -/
theorem nextOf_setPrev (ns : List (LinkedNode T)) (j : Nat) (p : Option Nat) (i : Nat) :
    nextOf (setPrev ns j p) i = nextOf ns i := by
  rcases eq_or_ne j i with rfl | h
  · by_cases hj : j < ns.length
    · simp [nextOf, getN_setPrev_self ns p hj]
    · simp [nextOf, setPrev, set_oob ns j _ (by omega)]
  · simp [nextOf, getN_setPrev_ne ns j p h]

/-- `setPrev` leaves every value unchanged. -/
theorem valOf_setPrev (ns : List (LinkedNode T)) (j : Nat) (p : Option Nat) (i : Nat) :
    valOf (setPrev ns j p) i = valOf ns i := by
  rcases eq_or_ne j i with rfl | h
  · by_cases hj : j < ns.length
    · simp [valOf, getN_setPrev_self ns p hj]
    · simp [valOf, setPrev, set_oob ns j _ (by omega)]
  · simp [valOf, getN_setPrev_ne ns j p h]

/-- `setVal` leaves every `next` field unchanged. -/
theorem nextOf_setVal (ns : List (LinkedNode T)) (j : Nat) (v : T) (i : Nat) :
    nextOf (setVal ns j v) i = nextOf ns i := by
  rcases eq_or_ne j i with rfl | h
  · by_cases hj : j < ns.length
    · simp [nextOf, getN_setVal_self ns v hj]
    · simp [nextOf, setVal, set_oob ns j _ (by omega)]
  · simp [nextOf, getN_setVal_ne ns j v h]

/-- `setVal` leaves every `prev` field unchanged. -/
theorem prevOf_setVal (ns : List (LinkedNode T)) (j : Nat) (v : T) (i : Nat) :
    prevOf (setVal ns j v) i = prevOf ns i := by
  rcases eq_or_ne j i with rfl | h
  · by_cases hj : j < ns.length
    · simp [prevOf, getN_setVal_self ns v hj]
    · simp [prevOf, setVal, set_oob ns j _ (by omega)]
  · simp [prevOf, getN_setVal_ne ns j v h]

/-! ### Segment structure lemmas -/

theorem isFreeSeg_nil {ns : List (LinkedNode T)} {p q : Option Nat} :
    isFreeSeg ns p [] q ↔ p = q := by simp [isFreeSeg]

theorem isFreeSeg_cons {ns : List (LinkedNode T)} {p q : Option Nat} {i : Nat} {is : List Nat} :
    isFreeSeg ns p (i :: is) q ↔
      p = some i ∧ i < ns.length ∧ isFreeSeg ns (nextOf ns i) is q := by simp [isFreeSeg]

theorem isSeg_nil {ns : List (LinkedNode T)} {pv p qv q : Option Nat} :
    isSeg ns pv p [] qv q ↔ pv = qv ∧ p = q := by simp [isSeg]

theorem isSeg_cons {ns : List (LinkedNode T)} {pv p qv q : Option Nat} {i : Nat}
    {is : List Nat} :
    isSeg ns pv p (i :: is) qv q ↔
      p = some i ∧ i < ns.length ∧ prevOf ns i = pv ∧
        isSeg ns (some i) (nextOf ns i) is qv q := by simp [isSeg]

/-- Members of a free segment are in bounds. -/
theorem isFreeSeg_mem_lt {ns : List (LinkedNode T)} {p q : Option Nat} {is : List Nat}
    (h : isFreeSeg ns p is q) : ∀ i ∈ is, i < ns.length := by
  induction is generalizing p with
  | nil => simp
  | cons i is ih =>
    rw [isFreeSeg_cons] at h
    intro j hj
    rcases List.mem_cons.1 hj with rfl | hj
    · exact h.2.1
    · exact ih h.2.2 j hj

/-- Members of a doubly linked segment are in bounds. -/
theorem isSeg_mem_lt {ns : List (LinkedNode T)} {pv p qv q : Option Nat} {is : List Nat}
    (h : isSeg ns pv p is qv q) : ∀ i ∈ is, i < ns.length := by
  induction is generalizing pv p with
  | nil => simp
  | cons i is ih =>
    rw [isSeg_cons] at h
    intro j hj
    rcases List.mem_cons.1 hj with rfl | hj
    · exact h.2.1
    · exact ih h.2.2.2 j hj

/-- A free segment only reads its member slots: it transfers to any arena that is
at least as long and agrees on the members. -/
theorem isFreeSeg_grow {ns ms : List (LinkedNode T)} {p q : Option Nat} {is : List Nat}
    (hl : ns.length ≤ ms.length) (hg : ∀ i ∈ is, getN ms i = getN ns i) :
    isFreeSeg ns p is q → isFreeSeg ms p is q := by
  induction is generalizing p with
  | nil => simp [isFreeSeg_nil]
  | cons i is ih =>
    rw [isFreeSeg_cons, isFreeSeg_cons]
    rintro ⟨rfl, hlt, hrest⟩
    have hni : nextOf ms i = nextOf ns i := by
      simp [nextOf, hg i (by simp)]
    refine ⟨rfl, by omega, ?_⟩
    rw [hni]
    exact ih (fun j hj => hg j (by simp [hj])) hrest

/-- A doubly linked segment transfers to any arena that is at least as long and
agrees on the members. -/
theorem isSeg_grow {ns ms : List (LinkedNode T)} {pv p qv q : Option Nat} {is : List Nat}
    (hl : ns.length ≤ ms.length) (hg : ∀ i ∈ is, getN ms i = getN ns i)
    (h : isSeg ns pv p is qv q) : isSeg ms pv p is qv q := by
  induction is generalizing pv p with
  | nil => rw [isSeg_nil] at h ⊢; exact h
  | cons i is ih =>
    rw [isSeg_cons] at h ⊢
    obtain ⟨rfl, hlt, hprev, hrest⟩ := h
    have hni : nextOf ms i = nextOf ns i := by simp [nextOf, hg i (by simp)]
    have hpi : prevOf ms i = prevOf ns i := by simp [prevOf, hg i (by simp)]
    refine ⟨rfl, by omega, by rw [hpi]; exact hprev, ?_⟩
    rw [hni]
    exact ih (fun j hj => hg j (by simp [hj])) hrest

/-- Mapped values only depend on the member slots. -/
theorem valMap_congr {ns ms : List (LinkedNode T)} {is : List Nat}
    (hg : ∀ i ∈ is, getN ms i = getN ns i) :
    is.map (valOf ms) = is.map (valOf ns) := by
  apply List.map_congr_left
  intro i hi
  simp [valOf, hg i hi]

/-- Concatenate two free segments. -/
theorem isFreeSeg_append {ns : List (LinkedNode T)} {p q r : Option Nat} {is₁ is₂ : List Nat}
    (h₁ : isFreeSeg ns p is₁ q) (h₂ : isFreeSeg ns q is₂ r) :
    isFreeSeg ns p (is₁ ++ is₂) r := by
  induction is₁ generalizing p with
  | nil => rw [isFreeSeg_nil] at h₁; simpa [h₁] using h₂
  | cons i is ih =>
    rw [isFreeSeg_cons] at h₁
    rw [List.cons_append, isFreeSeg_cons]
    exact ⟨h₁.1, h₁.2.1, ih h₁.2.2⟩

/-- Split a free segment at a concatenation point. -/
theorem isFreeSeg_split {ns : List (LinkedNode T)} {p r : Option Nat} {is₁ is₂ : List Nat}
    (h : isFreeSeg ns p (is₁ ++ is₂) r) :
    ∃ q, isFreeSeg ns p is₁ q ∧ isFreeSeg ns q is₂ r := by
  induction is₁ generalizing p with
  | nil => exact ⟨p, by rw [isFreeSeg_nil], by simpa using h⟩
  | cons i is ih =>
    rw [List.cons_append, isFreeSeg_cons] at h
    obtain ⟨q, hq₁, hq₂⟩ := ih h.2.2
    exact ⟨q, by rw [isFreeSeg_cons]; exact ⟨h.1, h.2.1, hq₁⟩, hq₂⟩

/-- Concatenate two doubly linked segments. -/
theorem isSeg_append {ns : List (LinkedNode T)} {pv p qv q rv r : Option Nat}
    {is₁ is₂ : List Nat} (h₁ : isSeg ns pv p is₁ qv q) (h₂ : isSeg ns qv q is₂ rv r) :
    isSeg ns pv p (is₁ ++ is₂) rv r := by
  induction is₁ generalizing pv p with
  | nil =>
    rw [isSeg_nil] at h₁
    obtain ⟨rfl, rfl⟩ := h₁
    simpa using h₂
  | cons i is ih =>
    rw [isSeg_cons] at h₁
    rw [List.cons_append, isSeg_cons]
    exact ⟨h₁.1, h₁.2.1, h₁.2.2.1, ih h₁.2.2.2⟩

/-- Split a doubly linked segment at a concatenation point. -/
theorem isSeg_split {ns : List (LinkedNode T)} {pv p rv r : Option Nat} {is₁ is₂ : List Nat}
    (h : isSeg ns pv p (is₁ ++ is₂) rv r) :
    ∃ qv q, isSeg ns pv p is₁ qv q ∧ isSeg ns qv q is₂ rv r := by
  induction is₁ generalizing pv p with
  | nil => exact ⟨pv, p, by rw [isSeg_nil]; exact ⟨rfl, rfl⟩, by simpa using h⟩
  | cons i is ih =>
    rw [List.cons_append, isSeg_cons] at h
    obtain ⟨qv, q, hq₁, hq₂⟩ := ih h.2.2.2
    exact ⟨qv, q, by rw [isSeg_cons]; exact ⟨h.1, h.2.1, h.2.2.1, hq₁⟩, hq₂⟩

/-- Forget the `prev` structure of a doubly linked segment. -/
theorem isSeg_toFree {ns : List (LinkedNode T)} {pv p qv q : Option Nat} {is : List Nat}
    (h : isSeg ns pv p is qv q) : isFreeSeg ns p is q := by
  induction is generalizing pv p with
  | nil => rw [isSeg_nil] at h; rw [isFreeSeg_nil]; exact h.2
  | cons i is ih =>
    rw [isSeg_cons] at h
    rw [isFreeSeg_cons]
    exact ⟨h.1, h.2.1, ih h.2.2.2⟩

/-- The running pointer of a free segment is the head member (or `q` if empty). -/
theorem isFreeSeg_headPtr {ns : List (LinkedNode T)} {p : Option Nat} {is : List Nat}
    (h : isFreeSeg ns p is none) : p = is.head? := by
  cases is with
  | nil => rw [isFreeSeg_nil] at h; simp [h]
  | cons i is => rw [isFreeSeg_cons] at h; simp [h.1]

/-- The entry pointer of a null-terminated doubly linked segment is its head
member (or null if empty). -/
theorem isSeg_headPtr {ns : List (LinkedNode T)} {pv p qv : Option Nat} {is : List Nat}
    (h : isSeg ns pv p is qv none) : p = is.head? := by
  cases is with
  | nil => rw [isSeg_nil] at h; simp [h.2]
  | cons i is => rw [isSeg_cons] at h; simp [h.1]

/-- The exit predecessor of a nonempty doubly linked segment is its last member. -/
theorem isSeg_lastPtr_ne {ns : List (LinkedNode T)} {qv q : Option Nat} :
    ∀ {is : List Nat} {pv p : Option Nat}, isSeg ns pv p is qv q → is ≠ [] →
      qv = is.getLast?
  | [], _, _, _, hne => absurd rfl hne
  | [i], pv, p, h, _ => by
    rw [isSeg_cons, isSeg_nil] at h
    simp [← h.2.2.2.1]
  | i :: j :: js, pv, p, h, _ => by
    rw [isSeg_cons] at h
    rw [List.getLast?_cons_cons]
    exact isSeg_lastPtr_ne h.2.2.2 (by simp)

/-- The exit predecessor of a doubly linked segment entered with a null
predecessor is its last member (or null if empty). -/
theorem isSeg_lastPtr {ns : List (LinkedNode T)} {p qv q : Option Nat} {is : List Nat}
    (h : isSeg ns none p is qv q) : qv = is.getLast? := by
  cases is with
  | nil => rw [isSeg_nil] at h; simp [← h.1]
  | cons i is => exact isSeg_lastPtr_ne h (by simp)

/-- Walking `is.length` steps along `next` from the entry of a free segment
collects exactly that segment's values. -/
theorem walkN_of_isFreeSeg {ns : List (LinkedNode T)} {p q : Option Nat} {is : List Nat}
    (h : isFreeSeg ns p is q) : walkN ns p is.length = is.map (valOf ns) := by
  induction is generalizing p with
  | nil => simp [walkN]
  | cons i is ih =>
    rw [isFreeSeg_cons] at h
    obtain ⟨rfl, -, hrest⟩ := h
    simp [walkN, List.length_cons, ih hrest]

/-- On a well-formed state the element sequence is the live chain's values. -/
theorem seqOf_eq {l : LinkedList T} {is fs : List Nat} (h : WfWith l is fs) :
    seqOf l = is.map (valOf l.nodes) := by
  obtain ⟨hseg, -, -, -, hlen, -⟩ := h
  rw [seqOf, hlen]
  exact walkN_of_isFreeSeg (isSeg_toFree hseg)

/-- The internal adjacency relation of the live chain: consecutive slots point at
each other. -/
def adjOf (ns : List (LinkedNode T)) (a b : Nat) : Prop :=
  nextOf ns a = some b ∧ prevOf ns b = some a

/-- A doubly linked segment is internally adjacent. -/
theorem isSeg_chain' {ns : List (LinkedNode T)} {pv p qv q : Option Nat} {is : List Nat}
    (h : isSeg ns pv p is qv q) : List.Chain' (adjOf ns) is := by
  induction is generalizing pv p with
  | nil => simp
  | cons i is ih =>
    rw [isSeg_cons] at h
    obtain ⟨rfl, -, -, hrest⟩ := h
    refine List.chain'_cons'.2 ⟨?_, ih hrest⟩
    intro j hj
    cases is with
    | nil => simp at hj
    | cons k ks =>
      rw [isSeg_cons] at hrest
      simp only [List.head?_cons, Option.mem_def, Option.some.injEq] at hj
      subst hj
      exact ⟨hrest.1, hrest.2.2.1⟩

/-- Well-formedness gives: `head` is the first live slot and `tail` the last. -/
theorem WfWith_head_tail {l : LinkedList T} {is fs : List Nat} (h : WfWith l is fs) :
    l.head = is.head? ∧ l.tail = is.getLast? := by
  obtain ⟨hseg, -⟩ := h
  exact ⟨isSeg_headPtr hseg, isSeg_lastPtr hseg⟩

/-! ### Iterator invariant -/

/-- Relates an iterator state to the contiguous sub-chain `m` of live slots it
has not yet visited: the remaining count is `m.length`, `m` is internally
adjacent, and (when anything remains) `head`/`tail` point at `m`'s ends. -/
def IterInv (ns : List (LinkedNode T)) (m : List Nat) (st : IterSt T) : Prop :=
  st.len = m.length ∧ (∀ i ∈ m, i < ns.length) ∧ List.Chain' (adjOf ns) m ∧
  (m ≠ [] → st.head = m.head? ∧ st.tail = m.getLast?)

/-- `Iter::next()` yields the head of the remaining values and retains the
invariant on the remaining tail. -/
theorem iter_next_inv {ns : List (LinkedNode T)} {m : List Nat} {st : IterSt T}
    (h : IterInv ns m st) :
    (IterSt.next ns st).1 = (m.map (valOf ns)).head? ∧
      IterInv ns m.tail (IterSt.next ns st).2 := by
  obtain ⟨hlen, hmem, hch, hend⟩ := h
  cases m with
  | nil =>
    have h0 : ¬ 0 < st.len := by simp [hlen]
    refine ⟨?_, ?_⟩ <;> simp [IterSt.next, h0, IterInv, hlen]
  | cons i m' =>
    have hpos : 0 < st.len := by simp [hlen]
    obtain ⟨hhd, htl⟩ := hend (by simp)
    simp only [List.head?_cons] at hhd
    refine ⟨?_, ?_, ?_, ?_, ?_⟩
    · simp [IterSt.next, hpos, hhd]
    · simp [IterSt.next, hpos, hhd, hlen]
    · intro j hj
      exact hmem j (List.mem_cons_of_mem _ (by simpa using hj))
    · simpa [IterSt.next, hpos, hhd] using hch.tail
    · intro hne
      cases m' with
      | nil => simp at hne
      | cons j m'' =>
        have hadj : adjOf ns i j := by
          have := List.chain'_cons.1 hch
          exact this.1
        constructor
        · simp [IterSt.next, hpos, hhd, hadj.1]
        · simp only [IterSt.next, hpos, if_pos, hhd]
          rw [htl]
          simp [List.getLast?_cons_cons]

/-- `Iter::next_back()` yields the last of the remaining values and retains the
invariant on the remaining front part. -/
theorem iter_next_back_inv {ns : List (LinkedNode T)} {m : List Nat} {st : IterSt T}
    (h : IterInv ns m st) :
    (IterSt.next_back ns st).1 = (m.map (valOf ns)).getLast? ∧
      IterInv ns m.dropLast (IterSt.next_back ns st).2 := by
  obtain ⟨hlen, hmem, hch, hend⟩ := h
  rcases m.eq_nil_or_concat with rfl | ⟨m'', i, rfl⟩
  · have h0 : ¬ 0 < st.len := by simp [hlen]
    refine ⟨?_, ?_⟩ <;> simp [IterSt.next_back, h0, IterInv, hlen]
  · rw [List.concat_eq_append] at hlen hmem hch hend ⊢
    have hpos : 0 < st.len := by simp [hlen]
    obtain ⟨hhd, htl⟩ := hend (by simp)
    have htl' : st.tail = some i := by rw [htl]; simp
    have hchsplit := List.chain'_append.1 hch
    have hdl : (m'' ++ [i]).dropLast = m'' := by simp
    rw [hdl]
    refine ⟨?_, ?_, ?_, ?_, ?_⟩
    · simp [IterSt.next_back, hpos, htl']
    · simp [IterSt.next_back, hpos, htl', hlen]
    · intro j hj
      exact hmem j (by simp [hj])
    · simpa [IterSt.next_back, hpos, htl'] using hchsplit.1
    · intro hne'
      constructor
      · simp only [IterSt.next_back, hpos, if_pos, htl']
        rw [hhd]
        cases m'' with
        | nil => exact absurd rfl hne'
        | cons a as => simp
      · have hx : ∃ x, m''.getLast? = some x := by
          cases m'' with
          | nil => exact absurd rfl hne'
          | cons a as => exact ⟨(a :: as).getLast (by simp), List.getLast?_eq_getLast _ _⟩
        obtain ⟨x, hx⟩ := hx
        have hadj : adjOf ns x i :=
          hchsplit.2.2 x (by simp [Option.mem_def, hx]) i (by simp)
        simp only [IterSt.next_back, hpos, if_pos, htl']
        rw [hadj.2, hx]

/-- Running any interleaving of `next()`/`next_back()` refines the two-ended
reference consumer: the outputs agree call by call and the final state again
satisfies the invariant for the remaining middle segment. -/
theorem iter_run_inv {ns : List (LinkedNode T)} :
    ∀ (cmds : List Bool) {m : List Nat} {st : IterSt T}, IterInv ns m st →
      ∃ m', IterInv ns m' (IterSt.run ns cmds st).1 ∧
        m'.map (valOf ns) = (specRun cmds (m.map (valOf ns))).1 ∧
        (IterSt.run ns cmds st).2 = (specRun cmds (m.map (valOf ns))).2
  | [], m, st, h => ⟨m, h, rfl, rfl⟩
  | true :: cs, m, st, h => by
    obtain ⟨hout, hinv⟩ := iter_next_inv h
    obtain ⟨m', hinv', hmap', hout'⟩ := iter_run_inv cs hinv
    refine ⟨m', hinv', ?_, ?_⟩
    · rw [hmap']
      simp [specRun, specStep, List.map_tail]
    · simp [IterSt.run, specRun, specStep, hout, hout', List.map_tail]
  | false :: cs, m, st, h => by
    obtain ⟨hout, hinv⟩ := iter_next_back_inv h
    obtain ⟨m', hinv', hmap', hout'⟩ := iter_run_inv cs hinv
    refine ⟨m', hinv', ?_, ?_⟩
    · rw [hmap']
      simp [specRun, specStep, List.map_dropLast]
    · simp [IterSt.run, specRun, specStep, hout, hout', List.map_dropLast]

/-! ### Pointer-congruence, shift, and splice lemmas -/

open LinkedList

theorem nextOf_setNext_self {ns : List (LinkedNode T)} {j : Nat} (p : Option Nat)
    (h : j < ns.length) : nextOf (setNext ns j p) j = p := by
  simp [nextOf, getN_setNext_self ns p h]

theorem nextOf_setNext_ne (ns : List (LinkedNode T)) (j : Nat) (p : Option Nat) {i : Nat}
    (h : j ≠ i) : nextOf (setNext ns j p) i = nextOf ns i := by
  simp [nextOf, getN_setNext_ne ns j p h]

theorem prevOf_setPrev_self {ns : List (LinkedNode T)} {j : Nat} (p : Option Nat)
    (h : j < ns.length) : prevOf (setPrev ns j p) j = p := by
  simp [prevOf, getN_setPrev_self ns p h]

theorem prevOf_setPrev_ne (ns : List (LinkedNode T)) (j : Nat) (p : Option Nat) {i : Nat}
    (h : j ≠ i) : prevOf (setPrev ns j p) i = prevOf ns i := by
  simp [prevOf, getN_setPrev_ne ns j p h]

/-- A free segment only depends on lengths and the `next` pointers of its
members. -/
theorem isFreeSeg_congr {ns ns' : List (LinkedNode T)} {p q : Option Nat} {is : List Nat}
    (hl : ns.length ≤ ns'.length) (hn : ∀ i ∈ is, nextOf ns' i = nextOf ns i) :
    isFreeSeg ns p is q → isFreeSeg ns' p is q := by
  induction is generalizing p with
  | nil => simp [isFreeSeg_nil]
  | cons i is ih =>
    rw [isFreeSeg_cons, isFreeSeg_cons]
    rintro ⟨rfl, hlt, hrest⟩
    refine ⟨rfl, by omega, ?_⟩
    rw [hn i (by simp)]
    exact ih (fun j hj => hn j (by simp [hj])) hrest

/-- A doubly linked segment only depends on lengths and the `next`/`prev`
pointers of its members. -/
theorem isSeg_congr {ns ns' : List (LinkedNode T)} {pv p qv q : Option Nat} {is : List Nat}
    (hl : ns.length ≤ ns'.length) (hn : ∀ i ∈ is, nextOf ns' i = nextOf ns i)
    (hp : ∀ i ∈ is, prevOf ns' i = prevOf ns i) :
    isSeg ns pv p is qv q → isSeg ns' pv p is qv q := by
  induction is generalizing pv p with
  | nil => simp [isSeg_nil]
  | cons i is ih =>
    rw [isSeg_cons, isSeg_cons]
    rintro ⟨rfl, hlt, hprev, hrest⟩
    refine ⟨rfl, by omega, by rw [hp i (by simp)]; exact hprev, ?_⟩
    rw [hn i (by simp)]
    exact ih (fun j hj => hn j (by simp [hj])) (fun j hj => hp j (by simp [hj])) hrest

/-- Mapped values only depend on the members' value fields. -/
theorem valMap_congr_val {ns ns' : List (LinkedNode T)} {is : List Nat}
    (hv : ∀ i ∈ is, valOf ns' i = valOf ns i) :
    is.map (valOf ns') = is.map (valOf ns) :=
  List.map_congr_left hv

/-- Reading a shifted arena behind an `ms` prefix: slot `ms.length + i` is slot
`i` of the original arena, with pointers shifted. -/
theorem getN_append_map_shift (ms ns : List (LinkedNode T)) {i : Nat} (h : i < ns.length) :
    getN (ms ++ ns.map (shiftNode ms.length)) (ms.length + i) =
      shiftNode ms.length (getN ns i) := by
  rw [getN_append_right _ _ (by omega)]
  have h2 : ms.length + i - ms.length = i := by omega
  rw [h2]
  simp only [getN, List.getElem?_map]
  rw [List.getElem?_eq_getElem h]
  rfl

/-- A free segment of arena `ns` re-appears, shifted, behind any prefix `ms`. -/
theorem isFreeSeg_shift {ms ns : List (LinkedNode T)} {p q : Option Nat} {is : List Nat}
    (h : isFreeSeg ns p is q) :
    isFreeSeg (ms ++ ns.map (shiftNode ms.length)) (p.map (· + ms.length))
      (is.map (· + ms.length)) (q.map (· + ms.length)) := by
  induction is generalizing p with
  | nil => rw [isFreeSeg_nil] at h; simp [isFreeSeg_nil, h]
  | cons i is ih =>
    rw [isFreeSeg_cons] at h
    obtain ⟨rfl, hlt, hrest⟩ := h
    rw [List.map_cons, isFreeSeg_cons]
    have hget := getN_append_map_shift ms ns hlt
    have hnext : nextOf (ms ++ ns.map (shiftNode ms.length)) (i + ms.length) =
        (nextOf ns i).map (· + ms.length) := by
      rw [nextOf, Nat.add_comm i ms.length, hget]
      rfl
    refine ⟨by simp, by simp; omega, ?_⟩
    rw [hnext]
    exact ih hrest

/-- A doubly linked segment of arena `ns` re-appears, shifted, behind any prefix
`ms`. -/
theorem isSeg_shift {ms ns : List (LinkedNode T)} {pv p qv q : Option Nat} {is : List Nat}
    (h : isSeg ns pv p is qv q) :
    isSeg (ms ++ ns.map (shiftNode ms.length)) (pv.map (· + ms.length))
      (p.map (· + ms.length)) (is.map (· + ms.length)) (qv.map (· + ms.length))
      (q.map (· + ms.length)) := by
  induction is generalizing pv p with
  | nil =>
    rw [isSeg_nil] at h
    simp [isSeg_nil, h.1, h.2]
  | cons i is ih =>
    rw [isSeg_cons] at h
    obtain ⟨rfl, hlt, hprev, hrest⟩ := h
    rw [List.map_cons, isSeg_cons]
    have hget := getN_append_map_shift ms ns hlt
    have hnext : nextOf (ms ++ ns.map (shiftNode ms.length)) (i + ms.length) =
        (nextOf ns i).map (· + ms.length) := by
      rw [nextOf, Nat.add_comm i ms.length, hget]; rfl
    have hprev' : prevOf (ms ++ ns.map (shiftNode ms.length)) (i + ms.length) =
        (prevOf ns i).map (· + ms.length) := by
      rw [prevOf, Nat.add_comm i ms.length, hget]; rfl
    refine ⟨by simp, by simp; omega, by rw [hprev', hprev], ?_⟩
    rw [hnext]
    exact ih hrest

/-- Redirect the `next` pointer of the last node of a null-terminated free
segment: the segment now exits at the new pointer. -/
theorem isFreeSeg_relink_last {ns : List (LinkedNode T)} {p : Option Nat} {is : List Nat}
    {t : Nat} (h : isFreeSeg ns p (is ++ [t]) none) (hnd : (is ++ [t]).Nodup)
    (r : Option Nat) : isFreeSeg (setNext ns t r) p (is ++ [t]) r := by
  obtain ⟨q, h₁, h₂⟩ := isFreeSeg_split h
  rw [isFreeSeg_cons, isFreeSeg_nil] at h₂
  obtain ⟨rfl, hlt, -⟩ := h₂
  have htis : t ∉ is := by
    have := List.nodup_append.1 hnd
    intro hmem
    exact this.2.2 hmem (by simp)
  refine isFreeSeg_append (q := some t) ?_ ?_
  · refine isFreeSeg_congr (by simp [length_setNext]) ?_ h₁
    intro i hi
    exact nextOf_setNext_ne ns t r (fun hti => htis (hti ▸ hi))
  · rw [isFreeSeg_cons, isFreeSeg_nil]
    exact ⟨rfl, by simpa [length_setNext] using hlt, nextOf_setNext_self r hlt⟩

/-- Redirect the `next` pointer of the last node of a null-terminated doubly
linked segment. -/
theorem isSeg_relink_last {ns : List (LinkedNode T)} {pv p qv : Option Nat} {is : List Nat}
    {t : Nat} (h : isSeg ns pv p (is ++ [t]) qv none) (hnd : (is ++ [t]).Nodup)
    (r : Option Nat) : isSeg (setNext ns t r) pv p (is ++ [t]) qv r := by
  obtain ⟨mv, m, h₁, h₂⟩ := isSeg_split h
  rw [isSeg_cons, isSeg_nil] at h₂
  obtain ⟨rfl, hlt, hprev, hqv, -⟩ := h₂
  have htis : t ∉ is := by
    have := List.nodup_append.1 hnd
    intro hmem
    exact this.2.2 hmem (by simp)
  have hseg1 : isSeg (setNext ns t r) pv p is mv (some t) := by
    refine isSeg_congr (by simp [length_setNext]) ?_ ?_ h₁
    · intro i hi
      exact nextOf_setNext_ne ns t r (fun hti => htis (hti ▸ hi))
    · intro i hi
      exact prevOf_setNext ns t r i
  refine isSeg_append hseg1 ?_
  rw [isSeg_cons, isSeg_nil]
  exact ⟨rfl, by simpa [length_setNext] using hlt,
    by rw [prevOf_setNext]; exact hprev,
    hqv, nextOf_setNext_self r hlt⟩

/-- `walkLast` on a nonempty null-terminated free chain finds its last node and
counts exactly the chain's nodes. -/
theorem walkLast_spec {ns : List (LinkedNode T)} :
    ∀ {rest : List Nat} {p fuel : Nat}, isFreeSeg ns (some p) (p :: rest) none →
      rest.length ≤ fuel →
      walkLast ns fuel p = ((p :: rest).getLast (by simp), (p :: rest).length)
  | [], p, fuel, h, _ => by
    rw [isFreeSeg_cons, isFreeSeg_nil] at h
    cases fuel <;> simp [walkLast, h.2.2]
  | r :: rs, p, fuel, h, hf => by
    rw [isFreeSeg_cons] at h
    obtain ⟨-, hlt, hrest⟩ := h
    have hpr : nextOf ns p = some r := by
      rw [isFreeSeg_cons] at hrest
      exact hrest.1
    rw [hpr] at hrest
    cases fuel with
    | zero => simp at hf
    | succ f =>
      have := walkLast_spec hrest (by simpa using hf)
      simp only [walkLast, hpr, this]
      simp [List.getLast_cons]

/-- Specification of `combine_unused_nodes` when the swap condition is false (it
always is when reached from `append` on well-formed lists): the walk traverses
exactly `other`'s free list (`fsO` nodes) and splices it in front of `self`'s
free list, touching no value, no `prev` pointer, and no `next` pointer outside
`fsO`. -/
theorem combine_unused_spec {ns : List (LinkedNode T)} {fsS fsO : List Nat}
    {su ou : Option Nat} {cap len otherCap otherLen : Nat}
    (hS : isFreeSeg ns su fsS none) (hO : isFreeSeg ns ou fsO none)
    (hnd : (fsO ++ fsS).Nodup) (hcard : fsO.length ≤ ns.length)
    (hswap : ¬ (cap - len < otherCap - otherLen)) :
    (combine_unused_nodes ns cap len su otherCap otherLen ou).2.2 = fsO.length ∧
    isFreeSeg (combine_unused_nodes ns cap len su otherCap otherLen ou).1
      (combine_unused_nodes ns cap len su otherCap otherLen ou).2.1 (fsO ++ fsS) none ∧
    (combine_unused_nodes ns cap len su otherCap otherLen ou).1.length = ns.length ∧
    (∀ i, valOf (combine_unused_nodes ns cap len su otherCap otherLen ou).1 i = valOf ns i) ∧
    (∀ i, prevOf (combine_unused_nodes ns cap len su otherCap otherLen ou).1 i = prevOf ns i) ∧
    (∀ i, i ∉ fsO →
      nextOf (combine_unused_nodes ns cap len su otherCap otherLen ou).1 i = nextOf ns i) := by
  cases fsO with
  | nil =>
    have hou : ou = none := by rw [isFreeSeg_nil] at hO; exact hO
    subst hou
    have hc : combine_unused_nodes ns cap len su otherCap otherLen none =
        (ns, su, 0) := by
      simp [combine_unused_nodes, if_neg hswap]
    rw [hc]
    exact ⟨rfl, by simpa using hS, rfl, fun _ => rfl, fun _ => rfl, fun _ _ => rfl⟩
  | cons p rest =>
    have hou : ou = some p := by rw [isFreeSeg_cons] at hO; exact hO.1
    subst hou
    have hrest : rest.length ≤ ns.length := by
      simp only [List.length_cons] at hcard; omega
    have hwalk := walkLast_spec hO hrest
    obtain ⟨fsO₀, lastO, hsnoc⟩ :
        ∃ fsO₀ lastO, p :: rest = fsO₀ ++ [lastO] := by
      rcases (p :: rest).eq_nil_or_concat with hnil | ⟨l, x, hx⟩
      · simp at hnil
      · exact ⟨l, x, by simpa [List.concat_eq_append] using hx⟩
    have hlastO : (p :: rest).getLast (by simp) = lastO := by
      have h1 : (p :: rest).getLast? = some lastO := by
        rw [hsnoc]; exact List.getLast?_concat _
      have h2 : (p :: rest).getLast? = some ((p :: rest).getLast (by simp)) :=
        List.getLast?_eq_getLast _ _
      have := h2.symm.trans h1
      simpa using this
    have hc : combine_unused_nodes ns cap len su otherCap otherLen (some p) =
        (setNext ns lastO su, some p, (p :: rest).length) := by
      simp [combine_unused_nodes, if_neg hswap, hwalk, hlastO]
    rw [hc]
    have hlast_mem : lastO ∈ p :: rest := by rw [hsnoc]; simp
    have hndO : (p :: rest).Nodup := (List.nodup_append.1 hnd).1
    have hdisj : ∀ x ∈ p :: rest, x ∉ fsS := fun x hx => (List.nodup_append.1 hnd).2.2 hx
    refine ⟨rfl, ?_, by simp [length_setNext], fun i => valOf_setNext ns lastO su i,
      fun i => prevOf_setNext ns lastO su i, fun i hi => ?_⟩
    · -- spliced free chain
      have hrelink : isFreeSeg (setNext ns lastO su) (some p) (p :: rest) su := by
        rw [hsnoc] at hO hndO ⊢
        exact isFreeSeg_relink_last hO hndO su
      have hSkeep : isFreeSeg (setNext ns lastO su) su fsS none := by
        refine isFreeSeg_congr (by simp [length_setNext]) ?_ hS
        intro i hi
        exact nextOf_setNext_ne ns lastO su (fun he => hdisj lastO hlast_mem (he ▸ hi))
      exact isFreeSeg_append hrelink hSkeep
    · exact nextOf_setNext_ne ns lastO su (fun he => hi (he ▸ hlast_mem))

/-- Specification of the chain splice of `append`: on well-formed inputs it
produces the concatenated live chain (with `b`'s slots renamed upward), leaves
both free lists intact, and changes no stored value. -/
theorem appendSplice_spec {a b : LinkedList T} {isa fsa isb fsb : List Nat}
    (ha : WfWith a isa fsa) (hb : WfWith b isb fsb) :
    isSeg (appendSplice a b).1 none (appendSplice a b).2.1
        (isa ++ isb.map (· + a.nodes.length)) (appendSplice a b).2.2.1 none ∧
      (appendSplice a b).2.2.2 = a.len + b.len ∧
      (appendSplice a b).1.length = a.nodes.length + b.nodes.length ∧
      isFreeSeg (appendSplice a b).1 a.unused_nodes fsa none ∧
      isFreeSeg (appendSplice a b).1 (b.unused_nodes.map (· + a.nodes.length))
        (fsb.map (· + a.nodes.length)) none ∧
      (isa ++ isb.map (· + a.nodes.length)).map (valOf (appendSplice a b).1) =
        isa.map (valOf a.nodes) ++ isb.map (valOf b.nodes) := by
  obtain ⟨haSeg, haFree, haNd, haCnt, haLen, haCap, haChunk⟩ := ha
  obtain ⟨hbSeg, hbFree, hbNd, hbCnt, hbLen, hbCap, hbChunk⟩ := hb
  set s := a.nodes.length with hsdef
  set ns0 := a.nodes ++ b.nodes.map (shiftNode s) with hns0def
  have hns0len : ns0.length = a.nodes.length + b.nodes.length := by
    simp [hns0def]
  have haMem : ∀ i ∈ isa, i < a.nodes.length := isSeg_mem_lt haSeg
  have haMemF : ∀ i ∈ fsa, i < a.nodes.length := isFreeSeg_mem_lt haFree
  have hbMem : ∀ i ∈ isb, i < b.nodes.length := isSeg_mem_lt hbSeg
  have hgA : ∀ i ∈ isa, getN ns0 i = getN a.nodes i := fun i hi =>
    getN_append_left _ _ (haMem i hi)
  have hgAF : ∀ i ∈ fsa, getN ns0 i = getN a.nodes i := fun i hi =>
    getN_append_left _ _ (haMemF i hi)
  have haSeg0 : isSeg ns0 none a.head isa a.tail none :=
    isSeg_grow (by omega) hgA haSeg
  have haFree0 : isFreeSeg ns0 a.unused_nodes fsa none :=
    isFreeSeg_grow (by omega) hgAF haFree
  have hbSeg0 : isSeg ns0 none (b.head.map (· + s)) (isb.map (· + s))
      (b.tail.map (· + s)) none := by
    have := @isSeg_shift T _ a.nodes _ _ _ _ _ _ hbSeg
    simpa [hns0def] using this
  have hbFree0 : isFreeSeg ns0 (b.unused_nodes.map (· + s))
      (fsb.map (· + s)) none := by
    have := @isFreeSeg_shift T _ a.nodes _ _ _ _ hbFree
    simpa [hns0def] using this
  have hvB : ∀ x ∈ isb, valOf ns0 (x + s) = valOf b.nodes x := by
    intro x hx
    have hg := getN_append_map_shift a.nodes b.nodes (hbMem x hx)
    rw [valOf, Nat.add_comm x s, hsdef, hg]
    rfl
  have hmap0 : (isa ++ isb.map (· + s)).map (valOf ns0) =
      isa.map (valOf a.nodes) ++ isb.map (valOf b.nodes) := by
    rw [List.map_append, List.map_map]
    congr 1
    · exact valMap_congr_val (fun i hi => by simp [valOf, hgA i hi])
    · exact List.map_congr_left (fun x hx => hvB x hx)
  rcases Nat.eq_zero_or_pos a.len with hA | hApos
  · -- `a` empty: the chain moves over wholesale
    have hisa : isa = [] := by
      have : isa.length = 0 := by omega
      exact List.eq_nil_of_length_eq_zero this
    subst hisa
    have happ : appendSplice a b =
        (ns0, b.head.map (· + s), b.tail.map (· + s), b.len) := by
      simp [appendSplice, hA, hns0def]
    rw [happ]
    refine ⟨by simpa using hbSeg0, by simp [hA], hns0len, haFree0, hbFree0,
      by simpa using hmap0⟩
  · rcases Nat.eq_zero_or_pos b.len with hB | hBpos
    · -- `b` empty: nothing happens
      have hisb : isb = [] := by
        have : isb.length = 0 := by omega
        exact List.eq_nil_of_length_eq_zero this
      subst hisb
      have happ : appendSplice a b = (ns0, a.head, a.tail, a.len) := by
        simp only [appendSplice]
        rw [if_neg (by omega : ¬ a.len = 0), if_pos hB, ← hns0def]
      rw [happ]
      refine ⟨by simpa using haSeg0, by simp [hB], hns0len, haFree0, by simpa using hbFree0,
        by simpa using hmap0⟩
    · -- both nonempty: pointer surgery
      obtain ⟨isa₀, t, hisa⟩ : ∃ isa₀ t, isa = isa₀ ++ [t] := by
        rcases isa.eq_nil_or_concat with hnil | ⟨l, x, hx⟩
        · rw [hnil] at haLen; simp at haLen; omega
        · exact ⟨l, x, by simpa [List.concat_eq_append] using hx⟩
      obtain ⟨hb0, isb', hisb⟩ : ∃ hb0 isb', isb = hb0 :: isb' := by
        cases isb with
        | nil => rw [hbLen] at hBpos; simp at hBpos
        | cons x xs => exact ⟨x, xs, rfl⟩
      have htail : a.tail = some t := by
        rw [isSeg_lastPtr haSeg, hisa]
        simp
      have hbhead : b.head = some hb0 := by
        rw [isSeg_headPtr hbSeg, hisb]
        simp
      have happ : appendSplice a b =
          (setPrev (setNext ns0 t (some (hb0 + s))) (hb0 + s) (some t),
            a.head, b.tail.map (· + s), a.len + b.len) := by
        simp only [appendSplice]
        rw [if_neg (by omega : ¬ a.len = 0), if_neg (by omega : ¬ b.len = 0)]
        simp [htail, hbhead, hns0def]
      rw [happ]
      set ns1 := setNext ns0 t (some (hb0 + s)) with hns1def
      set ns2 := setPrev ns1 (hb0 + s) (some t) with hns2def
      have hns1len : ns1.length = ns0.length := by simp [hns1def, length_setNext]
      have hns2len : ns2.length = ns1.length := by simp [hns2def, length_setPrev]
      have hts : t < s := haMem t (by rw [hisa]; simp)
      have hb0lt : hb0 + s < ns0.length := by
        have := hbMem hb0 (by rw [hisb]; simp)
        omega
      -- every value is untouched
      have hval2 : ∀ i, valOf ns2 i = valOf ns0 i := by
        intro i
        rw [hns2def, valOf_setPrev, hns1def, valOf_setNext]
      have haNdIsa : isa.Nodup := (List.nodup_append.1 haNd).1
      have hbNdIsb : isb.Nodup := (List.nodup_append.1 hbNd).1
      have haDisj : ∀ x ∈ isa, x ∉ fsa := fun x hx => (List.nodup_append.1 haNd).2.2 hx
      -- a-side chain: relink the last node, then survive the prev-write
      have haSeg2 : isSeg ns2 none a.head isa a.tail (some (hb0 + s)) := by
        have h0' : isSeg ns0 none a.head (isa₀ ++ [t]) a.tail none := by
          rw [← hisa]; exact haSeg0
        have hnd' : (isa₀ ++ [t]).Nodup := by rw [← hisa]; exact haNdIsa
        have h1 : isSeg ns1 none a.head (isa₀ ++ [t]) a.tail (some (hb0 + s)) := by
          rw [hns1def]
          exact isSeg_relink_last h0' hnd' _
        rw [hisa]
        refine isSeg_congr (by omega) ?_ ?_ h1
        · intro i _
          rw [hns2def, nextOf_setPrev]
        · intro i hi
          have : i < s := haMem i (by rw [hisa]; exact hi)
          rw [hns2def]
          exact prevOf_setPrev_ne ns1 _ _ (by omega)
      -- b-side chain: the head's prev now points at `t`
      have hbSeg2 : isSeg ns2 (some t) (some (hb0 + s)) (isb.map (· + s))
          (b.tail.map (· + s)) none := by
        rw [hisb, List.map_cons, isSeg_cons] at hbSeg0 ⊢
        obtain ⟨-, -, -, hrest⟩ := hbSeg0
        have hnd2 : hb0 + s ∉ isb'.map (· + s) := by
          rw [hisb] at hbNdIsb
          intro hmem
          obtain ⟨y, hy, hxy⟩ := List.mem_map.1 hmem
          have : y = hb0 := by omega
          exact (List.nodup_cons.1 hbNdIsb).1 (this ▸ hy)
        have hb0lt1 : hb0 + s < ns1.length := by omega
        refine ⟨rfl, by omega, ?_, ?_⟩
        · rw [hns2def]
          exact prevOf_setPrev_self _ hb0lt1
        · have hnx : nextOf ns2 (hb0 + s) = nextOf ns0 (hb0 + s) := by
            rw [hns2def, nextOf_setPrev, hns1def]
            exact nextOf_setNext_ne ns0 t _ (by omega)
          rw [hnx]
          refine isSeg_congr (by omega) ?_ ?_ hrest
          · intro i hi
            have hgei : s ≤ i := by
              obtain ⟨y, -, hxy⟩ := List.mem_map.1 hi
              omega
            rw [hns2def, nextOf_setPrev, hns1def]
            exact nextOf_setNext_ne ns0 t _ (by omega)
          · intro i hi
            rw [hns2def]
            rw [prevOf_setPrev_ne _ _ _ (fun he => hnd2 (by rw [he]; exact hi))]
            exact prevOf_setNext ns0 t _ i
      have hchain : isSeg ns2 none a.head (isa ++ isb.map (· + s))
          (b.tail.map (· + s)) none := by
        refine isSeg_append ?_ hbSeg2
        rwa [htail] at haSeg2
      have haFree2 : isFreeSeg ns2 a.unused_nodes fsa none := by
        refine isFreeSeg_congr (by omega) ?_ haFree0
        intro i hi
        rw [hns2def, nextOf_setPrev, hns1def]
        exact nextOf_setNext_ne ns0 t _ (fun he => haDisj t (by rw [hisa]; simp) (he ▸ hi))
      have hbFree2 : isFreeSeg ns2 (b.unused_nodes.map (· + s))
          (fsb.map (· + s)) none := by
        refine isFreeSeg_congr (by omega) ?_ hbFree0
        intro i hi
        have hgei : s ≤ i := by
          obtain ⟨y, -, hxy⟩ := List.mem_map.1 hi
          omega
        rw [hns2def, nextOf_setPrev, hns1def]
        exact nextOf_setNext_ne ns0 t _ (by omega)
      refine ⟨hchain, rfl, by simp; omega, haFree2, hbFree2, ?_⟩
      rw [valMap_congr_val (fun i _ => hval2 i)]
      exact hmap0

/-- Merging two nodup partitions with disjoint ranges (everything on the `u`
side below `s`, everything on the `v` side at least `s`) yields a nodup
partition. -/
theorem nodup_shift_merge {u₁ u₂ v₁ v₂ : List Nat} {s : Nat}
    (hu : (u₁ ++ u₂).Nodup) (hv : (v₁ ++ v₂).Nodup)
    (hub : ∀ x ∈ u₁ ++ u₂, x < s) (hvb : ∀ x ∈ v₁ ++ v₂, s ≤ x) :
    ((u₁ ++ v₁) ++ (v₂ ++ u₂)).Nodup := by
  obtain ⟨hu₁, hu₂, hud⟩ := List.nodup_append.1 hu
  obtain ⟨hv₁, hv₂, hvd⟩ := List.nodup_append.1 hv
  rw [List.nodup_append]
  refine ⟨?_, ?_, ?_⟩
  · rw [List.nodup_append]
    refine ⟨hu₁, hv₁, ?_⟩
    intro x hx₁ hx₂
    have := hub x (by simp [hx₁])
    have := hvb x (by simp [hx₂])
    omega
  · rw [List.nodup_append]
    refine ⟨hv₂, hu₂, ?_⟩
    intro x hx₁ hx₂
    have := hub x (by simp [hx₂])
    have := hvb x (by simp [hx₁])
    omega
  · intro x hx hx'
    rcases List.mem_append.1 hx with hxu | hxv
    · rcases List.mem_append.1 hx' with hxv' | hxu'
      · have := hub x (by simp [hxu])
        have := hvb x (by simp [hxv'])
        omega
      · exact hud hxu hxu'
    · rcases List.mem_append.1 hx' with hxv' | hxu'
      · exact hvd hxv hxv'
      · have := hub x (by simp [hxu'])
        have := hvb x (by simp [hxv])
        omega

/-- Full specification of `append` on well-formed lists: the result is
well-formed with live chain `isa ++ (isb shifted)` and free list
`(fsb shifted) ++ fsa`, and its values are the two original value sequences
concatenated. -/
theorem append_wf {a b : LinkedList T} {isa fsa isb fsb : List Nat}
    (ha : WfWith a isa fsa) (hb : WfWith b isb fsb) :
    WfWith (append a b).1 (isa ++ isb.map (· + a.nodes.length))
        (fsb.map (· + a.nodes.length) ++ fsa) ∧
      (isa ++ isb.map (· + a.nodes.length)).map (valOf (append a b).1.nodes) =
        isa.map (valOf a.nodes) ++ isb.map (valOf b.nodes) := by
  have hsp := appendSplice_spec ha hb
  obtain ⟨hchain, hlenEq, hnsLen, hFa, hFb, hmap⟩ := hsp
  obtain ⟨haSeg, haFree, haNd, haCnt, haLen, haCap, haChunk⟩ := ha
  obtain ⟨hbSeg, hbFree, hbNd, hbCnt, hbLen, hbCap, hbChunk⟩ := hb
  set s := a.nodes.length with hsdef
  -- bounds for the nodup merge
  have haMem : ∀ i ∈ isa, i < s := isSeg_mem_lt haSeg
  have haMemF : ∀ i ∈ fsa, i < s := isFreeSeg_mem_lt haFree
  have hndAll : ((isa ++ isb.map (· + s)) ++ (fsb.map (· + s) ++ fsa)).Nodup := by
    refine nodup_shift_merge (s := s) haNd ?_ ?_ ?_
    · have : ((isb ++ fsb).map (· + s)).Nodup :=
        hbNd.map (fun x y hxy => by omega)
      simpa using this
    · intro x hx
      rcases List.mem_append.1 hx with h | h
      · exact haMem x h
      · exact haMemF x h
    · intro x hx
      rcases List.mem_append.1 hx with h | h <;>
        · obtain ⟨y, -, hxy⟩ := List.mem_map.1 h
          omega
  have hndFree : (fsb.map (· + s) ++ fsa).Nodup := (List.nodup_append.1 hndAll).2.1
  have hdisjIsFs : ∀ x ∈ isa ++ isb.map (· + s), x ∉ fsb.map (· + s) ++ fsa :=
    fun x hx => (List.nodup_append.1 hndAll).2.2 hx
  -- the swap condition of combine_unused_nodes is always false here
  have hswap : ¬ (a.capacity + b.capacity - (appendSplice a b).2.2.2 <
      b.capacity - b.len) := by
    rw [hlenEq]
    omega
  have hcard : (fsb.map (· + s)).length ≤ (appendSplice a b).1.length := by
    simp only [List.length_map, hnsLen]
    omega
  have hcomb := combine_unused_spec hFa hFb hndFree hcard hswap
  obtain ⟨hcnt, hcombFree, hcombLen, hcombVal, hcombPrev, hcombNext⟩ := hcomb
  -- the appended list's fields, by definition of `append`
  have hnodesEq : (append a b).1.nodes =
      (combine_unused_nodes (appendSplice a b).1 (a.capacity + b.capacity)
        (appendSplice a b).2.2.2 a.unused_nodes b.capacity b.len
        (b.unused_nodes.map (· + s))).1 := rfl
  have hunusedEq : (append a b).1.unused_nodes =
      (combine_unused_nodes (appendSplice a b).1 (a.capacity + b.capacity)
        (appendSplice a b).2.2.2 a.unused_nodes b.capacity b.len
        (b.unused_nodes.map (· + s))).2.1 := rfl
  have hheadEq : (append a b).1.head = (appendSplice a b).2.1 := rfl
  have htailEq : (append a b).1.tail = (appendSplice a b).2.2.1 := rfl
  have hlenEq' : (append a b).1.len = (appendSplice a b).2.2.2 := rfl
  have hcapEq : (append a b).1.capacity = a.capacity + b.capacity := rfl
  have hchunkEq : (append a b).1.chunk_size = a.chunk_size := rfl
  -- the final chain survives combine (it only rewires free-list nodes)
  have hchainF : isSeg (append a b).1.nodes none (append a b).1.head
      (isa ++ isb.map (· + s)) (append a b).1.tail none := by
    rw [hnodesEq, hheadEq, htailEq]
    refine isSeg_congr (by rw [hcombLen]) ?_ ?_ hchain
    · intro i hi
      refine hcombNext i (fun hmem => hdisjIsFs i hi (by simp [hmem]))
    · intro i _
      exact hcombPrev i
  have hvalsF : (isa ++ isb.map (· + s)).map (valOf (append a b).1.nodes) =
      isa.map (valOf a.nodes) ++ isb.map (valOf b.nodes) := by
    rw [hnodesEq, valMap_congr_val (fun i _ => hcombVal i)]
    exact hmap
  refine ⟨⟨hchainF, ?_, hndAll, ?_, ?_, ?_, ?_⟩, hvalsF⟩
  · rw [hnodesEq, hunusedEq]
    exact hcombFree
  · simp only [List.length_append, List.length_map, hnodesEq, hcombLen, hnsLen]
    omega
  · rw [hlenEq', hlenEq]
    simp only [List.length_append, List.length_map]
    omega
  · rw [hcapEq, hnodesEq, hcombLen, hnsLen]
    omega
  · rw [hchunkEq]
    exact haChunk

/-! ### Allocation lemmas -/

/-- The `allocate` linking loop threads the fresh slots `base..base+k-1` onto
the free list in ascending order, touching nothing else. -/
theorem allocLink_spec (base : Nat) :
    ∀ (k : Nat) (l : LinkedList T) (fs : List Nat),
      isFreeSeg l.nodes l.unused_nodes fs none →
      base + k ≤ l.nodes.length →
      (∀ i, i < k → base + i ∉ fs) →
      (allocLink base k l).nodes.length = l.nodes.length ∧
      isFreeSeg (allocLink base k l).nodes (allocLink base k l).unused_nodes
        (List.range' base k ++ fs) none ∧
      (∀ j, j ∉ List.range' base k → getN (allocLink base k l).nodes j = getN l.nodes j) ∧
      (allocLink base k l).head = l.head ∧ (allocLink base k l).tail = l.tail ∧
      (allocLink base k l).len = l.len ∧ (allocLink base k l).capacity = l.capacity ∧
      (allocLink base k l).chunk_size = l.chunk_size
  | 0, l, fs, hfs, _, _ =>
    ⟨rfl, hfs, fun _ _ => rfl, rfl, rfl, rfl, rfl, rfl⟩
  | k + 1, l, fs, hfs, hbound, hfresh => by
    set l₁ : LinkedList T :=
      { l with nodes := setNext l.nodes (base + k) l.unused_nodes,
               unused_nodes := some (base + k) } with hl₁
    have hstep : allocLink base (k + 1) l = allocLink base k l₁ := rfl
    have hlen₁ : l₁.nodes.length = l.nodes.length := by simp [hl₁, length_setNext]
    have hbk : base + k < l.nodes.length := by omega
    have hfs₁ : isFreeSeg l₁.nodes l₁.unused_nodes ((base + k) :: fs) none := by
      rw [isFreeSeg_cons]
      refine ⟨rfl, by simpa [hlen₁] using hbk, ?_⟩
      have hnx : nextOf l₁.nodes (base + k) = l.unused_nodes := by
        simp only [hl₁]
        exact nextOf_setNext_self _ hbk
      rw [hnx]
      refine isFreeSeg_congr (by omega) ?_ hfs
      intro i hi
      simp only [hl₁]
      exact nextOf_setNext_ne _ _ _ (fun he => hfresh k (by omega) (he ▸ hi))
    have ih := allocLink_spec base k l₁ ((base + k) :: fs) hfs₁ (by omega) (by
      intro i hik
      simp only [List.mem_cons]
      push_neg
      exact ⟨by omega, hfresh i (by omega)⟩)
    obtain ⟨ihlen, ihfs, ihget, ihh, iht, ihl, ihc, ihk⟩ := ih
    rw [hstep]
    have hrange : List.range' base (k + 1) ++ fs =
        List.range' base k ++ ((base + k) :: fs) := by
      have : List.range' base (k + 1) = List.range' base k ++ [base + k] := by
        simpa using List.range'_1_concat base k
      rw [this, List.append_assoc]
      rfl
    refine ⟨by omega, by rw [hrange]; exact ihfs, ?_, ihh, iht, ihl, ihc, ihk⟩
    intro j hj
    have hj1 : j ∉ List.range' base k := by
      intro hmem
      exact hj (by
        rw [List.mem_range'_1] at hmem ⊢
        omega)
    have hjk : j ≠ base + k := by
      intro he
      exact hj (by rw [List.mem_range'_1]; omega)
    rw [ihget j hj1]
    simp only [hl₁]
    exact getN_setNext_ne _ _ _ (fun he => hjk he.symm)

/-- `allocate n` preserves well-formedness, prepending the fresh slots
`[old length .. old length + n)` to the free list and growing the capacity by
exactly `n`; the chain, all existing slots and all bookkeeping fields other
than `capacity`/`allocations` are untouched. -/
theorem allocate_wf {l : LinkedList T} {is fs : List Nat} (h : WfWith l is fs) (n : Nat) :
    WfWith (allocate n l) is (List.range' l.nodes.length n ++ fs) ∧
      (allocate n l).head = l.head ∧ (allocate n l).tail = l.tail ∧
      (allocate n l).len = l.len ∧ (allocate n l).chunk_size = l.chunk_size ∧
      (allocate n l).capacity = l.capacity + n ∧
      (∀ j, j < l.nodes.length → getN (allocate n l).nodes j = getN l.nodes j) := by
  obtain ⟨hseg, hfree, hnd, hcnt, hlen, hcap, hchunk⟩ := h
  rcases Nat.eq_zero_or_pos n with rfl | hn
  · have h0 : allocate 0 l = l := rfl
    rw [h0]
    simp only [List.range'_zero, List.nil_append]
    refine ⟨⟨hseg, hfree, hnd, hcnt, hlen, hcap, hchunk⟩, ?_, ?_, ?_, ?_, ?_, ?_⟩ <;>
      first
        | trivial
        | omega
        | exact fun _ _ => trivial
  · set base := l.nodes.length with hbase
    set l₀ : LinkedList T :=
      { l with nodes := l.nodes ++ List.replicate n dfltNode,
               capacity := l.capacity + n,
               allocations := l.allocations ++ [(base, n)] } with hl₀
    have happ : allocate n l = allocLink base n l₀ := by
      simp only [allocate, if_neg (by omega : ¬ n = 0)]
    have hlen₀ : l₀.nodes.length = base + n := by simp [hl₀]
    have hmemIs : ∀ i ∈ is, i < base := isSeg_mem_lt hseg
    have hmemFs : ∀ i ∈ fs, i < base := isFreeSeg_mem_lt hfree
    have hseg₀ : isSeg l₀.nodes none l.head is l.tail none := by
      refine isSeg_grow (by simp [hl₀]) ?_ hseg
      intro i hi
      simp only [hl₀]
      exact getN_append_left _ _ (hmemIs i hi)
    have hfree₀ : isFreeSeg l₀.nodes l.unused_nodes fs none := by
      refine isFreeSeg_grow (by simp [hl₀]) ?_ hfree
      intro i hi
      simp only [hl₀]
      exact getN_append_left _ _ (hmemFs i hi)
    have hlk := allocLink_spec base n l₀ fs hfree₀ (by omega)
      (fun i _ hmem => by have := hmemFs _ hmem; omega)
    obtain ⟨lklen, lkfs, lkget, lkh, lkt, lkl, lkc, lkk⟩ := hlk
    have hgetOld : ∀ j, j < base → getN (allocLink base n l₀).nodes j = getN l.nodes j := by
      intro j hj
      rw [lkget j (by rw [List.mem_range'_1]; omega)]
      simp only [hl₀]
      exact getN_append_left _ _ hj
    refine ⟨⟨?_, ?_, ?_, ?_, ?_, ?_, ?_⟩, ?_, ?_, ?_, ?_, ?_, ?_⟩
    · rw [happ, lkh, lkt]
      refine isSeg_grow (by omega) ?_ hseg
      intro i hi
      exact hgetOld i (hmemIs i hi)
    · rw [happ]
      exact lkfs
    · -- nodup of is ++ (range' base n ++ fs)
      rw [List.nodup_append]
      obtain ⟨hndIs, hndFs, hndD⟩ := List.nodup_append.1 hnd
      refine ⟨hndIs, ?_, ?_⟩
      · rw [List.nodup_append]
        refine ⟨List.nodup_range' base n, hndFs, ?_⟩
        intro x hx₁ hx₂
        rw [List.mem_range'_1] at hx₁
        have := hmemFs x hx₂
        omega
      · intro x hx hx'
        rcases List.mem_append.1 hx' with hr | hf
        · rw [List.mem_range'_1] at hr
          have := hmemIs x hx
          omega
        · exact hndD hx hf
    · rw [happ, lklen, hlen₀]
      simp
      omega
    · rw [happ, lkl]
      exact hlen
    · rw [happ, lkc, lklen, hlen₀]
      simp [hl₀]
      omega
    · rw [happ, lkk]
      exact hchunk
    · rw [happ, lkh]
    · rw [happ, lkt]
    · rw [happ, lkl]
    · rw [happ, lkk]
    · rw [happ, lkc]
    · intro j hj
      rw [happ]
      exact hgetOld j hj

/-- Popping the free-list head `n₀` and overwriting it with a fresh node leaves
the chain, its values and the remaining free slots untouched. -/
theorem pop_write_spec {ns : List (LinkedNode T)} {hd tl u : Option Nat}
    {is fs' : List Nat} {n₀ : Nat}
    (hseg : isSeg ns none hd is tl none)
    (hfree : isFreeSeg ns u (n₀ :: fs') none)
    (hnd : (is ++ n₀ :: fs').Nodup)
    (nx pv : Option Nat) (v : T) :
    isSeg (setN ns n₀ ⟨nx, pv, v⟩) none hd is tl none ∧
      (∀ i ∈ is, valOf (setN ns n₀ ⟨nx, pv, v⟩) i = valOf ns i) ∧
      getN (setN ns n₀ ⟨nx, pv, v⟩) n₀ = ⟨nx, pv, v⟩ ∧
      isFreeSeg (setN ns n₀ ⟨nx, pv, v⟩) (nextOf ns n₀) fs' none ∧
      (setN ns n₀ ⟨nx, pv, v⟩).length = ns.length ∧
      n₀ < ns.length := by
  rw [isFreeSeg_cons] at hfree
  obtain ⟨hun, hn₀lt, hrest⟩ := hfree
  have hn₀is : n₀ ∉ is := by
    intro hmem
    exact (List.nodup_append.1 hnd).2.2 hmem (by simp)
  have hn₀fs : n₀ ∉ fs' := by
    have := (List.nodup_append.1 hnd).2.1
    exact (List.nodup_cons.1 this).1
  refine ⟨?_, ?_, getN_setN_self _ _ hn₀lt, ?_, by simp [length_setN], hn₀lt⟩
  · refine isSeg_congr (by simp [length_setN]) ?_ ?_ hseg <;>
      · intro i hi
        have hne : n₀ ≠ i := fun he => hn₀is (by rw [he]; exact hi)
        simp [nextOf, prevOf, getN_setN_ne _ _ _ hne]
  · intro i hi
    have hne : n₀ ≠ i := fun he => hn₀is (by rw [he]; exact hi)
    simp [valOf, getN_setN_ne _ _ _ hne]
  · refine isFreeSeg_congr (by simp [length_setN]) ?_ hrest
    intro i hi
    have hne : n₀ ≠ i := fun he => hn₀fs (by rw [he]; exact hi)
    simp [nextOf, getN_setN_ne _ _ _ hne]

/-- Specification of `new_node`: after (possibly) growing the arena by one
chunk, a fresh slot disjoint from the live chain is popped off the free list
and initialised to `⟨nx, pv, v⟩`; the chain, its values and the remaining free
slots are untouched, and all counts still add up. -/
theorem new_node_spec {l : LinkedList T} {is fs : List Nat} (h : WfWith l is fs)
    (nx pv : Option Nat) (v : T) :
    ∃ fs',
      isSeg (new_node nx pv v l).2.nodes none l.head is l.tail none ∧
      (∀ i ∈ is, valOf (new_node nx pv v l).2.nodes i = valOf l.nodes i) ∧
      getN (new_node nx pv v l).2.nodes (new_node nx pv v l).1 = ⟨nx, pv, v⟩ ∧
      isFreeSeg (new_node nx pv v l).2.nodes (new_node nx pv v l).2.unused_nodes fs' none ∧
      (is ++ (new_node nx pv v l).1 :: fs').Nodup ∧
      is.length + (fs'.length + 1) = (new_node nx pv v l).2.nodes.length ∧
      (new_node nx pv v l).2.capacity = (new_node nx pv v l).2.nodes.length ∧
      (new_node nx pv v l).2.head = l.head ∧ (new_node nx pv v l).2.tail = l.tail ∧
      (new_node nx pv v l).2.len = l.len ∧
      0 < (new_node nx pv v l).2.chunk_size ∧
      (new_node nx pv v l).1 < (new_node nx pv v l).2.nodes.length := by
  obtain ⟨hseg, hfree, hnd, hcnt, hlen, hcap, hchunk⟩ := h
  cases fs with
  | cons f0 fs'' =>
    have hun : l.unused_nodes = some f0 := by
      rw [isFreeSeg_cons] at hfree
      exact hfree.1
    have heval : new_node nx pv v l =
        (f0, { l with unused_nodes := nextOf l.nodes f0,
                      nodes := setN l.nodes f0 ⟨nx, pv, v⟩ }) := by
      simp [new_node, hun]
    have hpw := pop_write_spec hseg hfree hnd nx pv v
    obtain ⟨pseg, pval, pget, pfree, plen, plt⟩ := hpw
    rw [heval]
    exact ⟨fs'', pseg, pval, pget, pfree, hnd, by simpa [plen] using hcnt,
      by simpa [plen] using hcap, rfl, rfl, rfl, hchunk, by simpa [plen] using plt⟩
  | nil =>
    have hun : l.unused_nodes = none := by
      rw [isFreeSeg_nil] at hfree
      exact hfree
    obtain ⟨hWa, hah, hat, hal, hak, hacap, haget⟩ :=
      allocate_wf ⟨hseg, hfree, hnd, hcnt, hlen, hcap, hchunk⟩ l.chunk_size
    set la := allocate l.chunk_size l with hla
    obtain ⟨aseg, afree, and', acnt, alen, acap, achunk⟩ := hWa
    obtain ⟨c, hc⟩ : ∃ c, l.chunk_size = c + 1 := ⟨l.chunk_size - 1, by omega⟩
    have hrange : List.range' l.nodes.length l.chunk_size =
        l.nodes.length :: List.range' (l.nodes.length + 1) c := by
      rw [hc, List.range'_succ]
    rw [hrange] at afree and' acnt
    simp only [List.append_nil] at afree and' acnt
    have hunA : la.unused_nodes = some l.nodes.length := by
      rw [isFreeSeg_cons] at afree
      exact afree.1
    have heval : new_node nx pv v l =
        (l.nodes.length,
          { la with unused_nodes := nextOf la.nodes l.nodes.length,
                    nodes := setN la.nodes l.nodes.length ⟨nx, pv, v⟩ }) := by
      simp [new_node, hun, ← hla, hunA]
    have aseg' : isSeg la.nodes none l.head is l.tail none := by
      rwa [hah, hat] at aseg
    have hpw := pop_write_spec aseg' afree and' nx pv v
    obtain ⟨pseg, pval, pget, pfree, plen, plt⟩ := hpw
    rw [heval]
    refine ⟨List.range' (l.nodes.length + 1) c, pseg, ?_, pget, pfree,
      and', ?_, ?_, hah, hat, by rw [hal], by simpa [hak] using hchunk, ?_⟩
    · intro i hi
      rw [pval i hi]
      simp [valOf, haget i (isSeg_mem_lt hseg i hi)]
    · simp only [List.length_cons, List.length_range'] at acnt
      simp only [plen, List.length_range']
      omega
    · simpa [plen] using acap
    · simpa [plen] using plt

open CursorMut in
/-- Specification of `CursorMut::insert_next` at a cursor on node `c` (the
chain being `is₁ ++ c :: is₂`): a fresh node holding `v` is spliced in directly
after `c`, every existing value is untouched, `len` grows by one and the chain
head is unchanged. -/
theorem insert_next_wf {l : LinkedList T} {fs is₁ is₂ : List Nat} {c : Nat}
    (h : WfWith l (is₁ ++ c :: is₂) fs) (v : T) :
    ∃ n fs', n ∉ is₁ ++ c :: is₂ ∧
      WfWith (insert_next l c v) (is₁ ++ c :: n :: is₂) fs' ∧
      valOf (insert_next l c v).nodes n = v ∧
      (∀ i ∈ is₁ ++ c :: is₂, valOf (insert_next l c v).nodes i = valOf l.nodes i) ∧
      (insert_next l c v).len = l.len + 1 ∧
      (insert_next l c v).head = l.head := by
  obtain ⟨fs', pseg, pval, pget, pfree, pnd, pcnt, pcap, phead, ptail, plen, pchunk, plt⟩ :=
    new_node_spec h (nextOf l.nodes c) (some c) v
  set n := (new_node (nextOf l.nodes c) (some c) v l).1 with hn
  set l₁ := (new_node (nextOf l.nodes c) (some c) v l).2 with hl₁
  obtain ⟨hseg, hfree, hnd, hcnt, hlen, hcap, hchunk⟩ := h
  -- memberships
  have hnotin : n ∉ is₁ ++ c :: is₂ := fun hmem =>
    (List.nodup_append.1 pnd).2.2 hmem (by simp)
  have hndis : (is₁ ++ c :: is₂).Nodup := (List.nodup_append.1 pnd).1
  have hc1 : c ∉ is₁ := fun hmem =>
    (List.nodup_append.1 hndis).2.2 hmem (by simp)
  have hc2 : c ∉ is₂ :=
    (List.nodup_cons.1 (List.nodup_append.1 hndis).2.1).1
  have hcfs : c ∉ n :: fs' :=
    (List.nodup_append.1 pnd).2.2 (by simp)
  have hnc : n ≠ c := fun he => hnotin (by rw [he]; simp)
  have hcmem : c ∈ is₁ ++ c :: is₂ := by simp
  -- split the chain (in `l₁` and in `l`)
  obtain ⟨qv1, q1, seg1, segc⟩ := isSeg_split pseg
  rw [isSeg_cons] at segc
  obtain ⟨hq1, hclt, hcprev, seg2⟩ := segc
  obtain ⟨qv1o, q1o, seg1o, segco⟩ := isSeg_split hseg
  rw [isSeg_cons] at segco
  obtain ⟨-, -, -, seg2o⟩ := segco
  -- the nodup of the final chain plus free list
  have hndFinal : ((is₁ ++ c :: n :: is₂) ++ fs').Nodup := by
    have h1 : List.Perm ((is₁ ++ c :: is₂) ++ n :: fs')
        (n :: ((is₁ ++ c :: is₂) ++ fs')) := List.perm_middle
    have hstep := h1.nodup pnd
    have h2 : (is₁ ++ c :: n :: is₂) ++ fs' = (is₁ ++ [c]) ++ n :: (is₂ ++ fs') := by simp
    have h3 : List.Perm ((is₁ ++ [c]) ++ n :: (is₂ ++ fs'))
        (n :: ((is₁ ++ [c]) ++ (is₂ ++ fs'))) := List.perm_middle
    have h4 : (is₁ ++ [c]) ++ (is₂ ++ fs') = (is₁ ++ c :: is₂) ++ fs' := by simp
    rw [h2]
    refine List.Perm.nodup ?_ hstep
    have := h3.symm
    rwa [h4] at this
  -- counts for the final state
  have hcnt' : (is₁ ++ c :: n :: is₂).length + fs'.length = l₁.nodes.length := by
    simp only [List.length_append, List.length_cons] at pcnt ⊢
    omega
  cases is₂ with
  | nil =>
    have htailo : l.tail = some c := by
      rw [isSeg_nil] at seg2o
      exact seg2o.1.symm
    have hnxo : nextOf l.nodes c = none := by
      rw [isSeg_nil] at seg2o
      exact seg2o.2
    have hnl : nextOf l₁.nodes n = none := by
      rw [nextOf, hn, pget, hnxo]
    have hpn : prevOf l₁.nodes n = some c := by
      rw [prevOf, hn, pget]
    have heval0 : insert_next l c v =
        (match nextOf l.nodes c with
          | none =>
            { l₁ with len := l₁.len + 1, nodes := setNext l₁.nodes c (some n),
                      tail := some n }
          | some nn =>
            { l₁ with len := l₁.len + 1,
                      nodes := setPrev (setNext l₁.nodes c (some n)) nn (some n) }) := rfl
    rw [hnxo] at heval0
    simp only [] at heval0
    set ns' := setNext l₁.nodes c (some n) with hns'
    have hnslen : ns'.length = l₁.nodes.length := by simp [hns', length_setNext]
    have seg1' : isSeg ns' none l.head is₁ qv1 (some c) := by
      rw [hq1] at seg1
      refine isSeg_congr (by omega) ?_ ?_ seg1
      · intro i hi
        rw [hns']
        exact nextOf_setNext_ne _ _ _ (fun he => hc1 (he ▸ hi))
      · intro i _
        rw [hns']
        exact prevOf_setNext _ _ _ _
    have segC : isSeg ns' qv1 (some c) [c] (some c) (some n) := by
      rw [isSeg_cons, isSeg_nil]
      refine ⟨rfl, by omega, ?_, rfl, ?_⟩
      · rw [hns', prevOf_setNext]
        exact hcprev
      · rw [hns']
        exact nextOf_setNext_self _ (by omega)
    have segN : isSeg ns' (some c) (some n) [n] (some n) none := by
      rw [isSeg_cons, isSeg_nil]
      refine ⟨rfl, by omega, ?_, rfl, ?_⟩
      · rw [hns', prevOf_setNext]
        exact hpn
      · rw [hns']
        rw [nextOf_setNext_ne _ _ _ hnc.symm]
        exact hnl
    have hchain : isSeg ns' none l.head (is₁ ++ c :: n :: []) (some n) none := by
      have := isSeg_append (isSeg_append seg1' segC) segN
      simpa using this
    have hfree' : isFreeSeg ns' l₁.unused_nodes fs' none := by
      refine isFreeSeg_congr (by omega) ?_ pfree
      intro i hi
      rw [hns']
      refine nextOf_setNext_ne _ _ _ (fun he => hcfs (by rw [he]; simp [hi]))
    rw [heval0]
    refine ⟨n, fs', hnotin, ⟨?_, hfree', hndFinal, ?_, ?_, ?_, ?_⟩, ?_, ?_, ?_, phead⟩
    · rw [phead]
      exact hchain
    · simpa [hnslen] using hcnt'
    · simp only [List.length_append, List.length_cons] at hlen ⊢
      omega
    · simpa [hnslen] using pcap
    · exact pchunk
    · have hv : valOf ns' n = valOf l₁.nodes n := by rw [hns', valOf_setNext]
      rw [hv, valOf, hn, pget]
    · intro i hi
      have hv : valOf ns' i = valOf l₁.nodes i := by rw [hns', valOf_setNext]
      rw [hv]
      exact pval i hi
    · rw [plen]
  | cons nn₀ is₂' =>
    have hnxo : nextOf l.nodes c = some nn₀ := by
      rw [isSeg_cons] at seg2o
      exact seg2o.1
    have hnx1 : nextOf l₁.nodes c = some nn₀ := by
      rw [isSeg_cons] at seg2
      exact seg2.1
    rw [isSeg_cons] at seg2
    obtain ⟨-, hnn₀lt, hnn₀prev, seg3⟩ := seg2
    have hnl : nextOf l₁.nodes n = some nn₀ := by
      rw [nextOf, hn, pget, hnxo]
    have hpn : prevOf l₁.nodes n = some c := by
      rw [prevOf, hn, pget]
    -- distinctness facts
    have hnn₀c : nn₀ ≠ c := by
      intro he
      exact hc2 (by rw [← he]; simp)
    have hnn₀n : nn₀ ≠ n := by
      intro he
      exact hnotin (by rw [← he]; simp)
    have hnn₀is₁ : nn₀ ∉ is₁ := fun hmem =>
      (List.nodup_append.1 hndis).2.2 hmem (by simp)
    have hnn₀is₂ : nn₀ ∉ is₂' := by
      have := (List.nodup_cons.1 (List.nodup_append.1 hndis).2.1).2
      exact (List.nodup_cons.1 this).1
    have hnn₀fs : nn₀ ∉ n :: fs' :=
      (List.nodup_append.1 pnd).2.2 (by simp)
    have heval0 : insert_next l c v =
        (match nextOf l.nodes c with
          | none =>
            { l₁ with len := l₁.len + 1, nodes := setNext l₁.nodes c (some n),
                      tail := some n }
          | some nn =>
            { l₁ with len := l₁.len + 1,
                      nodes := setPrev (setNext l₁.nodes c (some n)) nn (some n) }) := rfl
    rw [hnxo] at heval0
    simp only [] at heval0
    set ns₁ := setNext l₁.nodes c (some n) with hns₁
    set ns' := setPrev ns₁ nn₀ (some n) with hns'
    have hns₁len : ns₁.length = l₁.nodes.length := by simp [hns₁, length_setNext]
    have hnslen : ns'.length = l₁.nodes.length := by simp [hns', length_setPrev, hns₁len]
    have hval' : ∀ i, valOf ns' i = valOf l₁.nodes i := by
      intro i
      rw [hns', valOf_setPrev, hns₁, valOf_setNext]
    have seg1' : isSeg ns' none l.head is₁ qv1 (some c) := by
      rw [hq1] at seg1
      refine isSeg_congr (by omega) ?_ ?_ seg1
      · intro i hi
        rw [hns', nextOf_setPrev, hns₁]
        exact nextOf_setNext_ne _ _ _ (fun he => hc1 (he ▸ hi))
      · intro i hi
        rw [hns']
        rw [prevOf_setPrev_ne _ _ _ (fun he => hnn₀is₁ (by rw [he]; exact hi)), hns₁, prevOf_setNext]
    have segC : isSeg ns' qv1 (some c) [c] (some c) (some n) := by
      rw [isSeg_cons, isSeg_nil]
      refine ⟨rfl, by omega, ?_, rfl, ?_⟩
      · rw [hns', prevOf_setPrev_ne _ _ _ hnn₀c, hns₁, prevOf_setNext]
        exact hcprev
      · rw [hns', nextOf_setPrev, hns₁]
        exact nextOf_setNext_self _ (by omega)
    have segN : isSeg ns' (some c) (some n) [n] (some n) (some nn₀) := by
      rw [isSeg_cons, isSeg_nil]
      refine ⟨rfl, by omega, ?_, rfl, ?_⟩
      · rw [hns', prevOf_setPrev_ne _ _ _ hnn₀n, hns₁, prevOf_setNext]
        exact hpn
      · rw [hns', nextOf_setPrev, hns₁, nextOf_setNext_ne _ _ _ hnc.symm]
        exact hnl
    have segRest : isSeg ns' (some n) (some nn₀) (nn₀ :: is₂')
        l.tail none := by
      rw [isSeg_cons]
      refine ⟨rfl, by omega, ?_, ?_⟩
      · rw [hns']
        exact prevOf_setPrev_self _ (by omega)
      · have hnx2 : nextOf ns' nn₀ = nextOf l₁.nodes nn₀ := by
          rw [hns', nextOf_setPrev, hns₁]
          exact nextOf_setNext_ne _ _ _ (fun he => hnn₀c he.symm)
        rw [hnx2]
        refine isSeg_congr (by omega) ?_ ?_ seg3
        · intro i hi
          rw [hns', nextOf_setPrev, hns₁]
          refine nextOf_setNext_ne _ _ _ (fun he => hc2 (by rw [he]; simp [hi]))
        · intro i hi
          rw [hns']
          rw [prevOf_setPrev_ne _ _ _ (fun he => hnn₀is₂ (by rw [he]; exact hi)), hns₁, prevOf_setNext]
    have hchain : isSeg ns' none l.head (is₁ ++ c :: n :: nn₀ :: is₂') l.tail none := by
      have := isSeg_append (isSeg_append (isSeg_append seg1' segC) segN) segRest
      simpa using this
    have hfree' : isFreeSeg ns' l₁.unused_nodes fs' none := by
      refine isFreeSeg_congr (by omega) ?_ pfree
      intro i hi
      rw [hns', nextOf_setPrev, hns₁]
      refine nextOf_setNext_ne _ _ _ (fun he => hcfs (by rw [he]; simp [hi]))
    rw [heval0]
    refine ⟨n, fs', hnotin, ⟨?_, hfree', hndFinal, ?_, ?_, ?_, ?_⟩, ?_, ?_, ?_, phead⟩
    · rw [phead, ptail]
      exact hchain
    · simpa [hnslen] using hcnt'
    · simp only [List.length_append, List.length_cons] at hlen ⊢
      omega
    · simpa [hnslen] using pcap
    · exact pchunk
    · rw [hval' n, hn, valOf, pget]
    · intro i hi
      rw [hval' i]
      exact pval i hi
    · rw [plen]

open CursorMut in
/-- Specification of `CursorMut::insert_prev` at a cursor on node `c` with index
`ix` (the chain being `is₁ ++ c :: is₂`): a fresh node holding `v` is spliced in
directly before `c`, every existing value is untouched, `len` grows by one, the
returned cursor index is `ix + 1` and the chain tail is unchanged. -/
theorem insert_prev_wf {l : LinkedList T} {fs is₁ is₂ : List Nat} {c : Nat}
    (h : WfWith l (is₁ ++ c :: is₂) fs) (ix : Nat) (v : T) :
    ∃ n fs', n ∉ is₁ ++ c :: is₂ ∧
      WfWith (insert_prev l c ix v).1 (is₁ ++ n :: c :: is₂) fs' ∧
      valOf (insert_prev l c ix v).1.nodes n = v ∧
      (∀ i ∈ is₁ ++ c :: is₂, valOf (insert_prev l c ix v).1.nodes i = valOf l.nodes i) ∧
      (insert_prev l c ix v).1.len = l.len + 1 ∧
      (insert_prev l c ix v).2 = ix + 1 ∧
      (insert_prev l c ix v).1.tail = l.tail := by
  obtain ⟨fs', pseg, pval, pget, pfree, pnd, pcnt, pcap, phead, ptail, plen, pchunk, plt⟩ :=
    new_node_spec h (some c) (prevOf l.nodes c) v
  set n := (new_node (some c) (prevOf l.nodes c) v l).1 with hn
  set l₁ := (new_node (some c) (prevOf l.nodes c) v l).2 with hl₁
  obtain ⟨hseg, hfree, hnd, hcnt, hlen, hcap, hchunk⟩ := h
  have hnotin : n ∉ is₁ ++ c :: is₂ := fun hmem =>
    (List.nodup_append.1 pnd).2.2 hmem (by simp)
  have hndis : (is₁ ++ c :: is₂).Nodup := (List.nodup_append.1 pnd).1
  have hc1 : c ∉ is₁ := fun hmem =>
    (List.nodup_append.1 hndis).2.2 hmem (by simp)
  have hc2 : c ∉ is₂ :=
    (List.nodup_cons.1 (List.nodup_append.1 hndis).2.1).1
  have hnc : n ≠ c := fun he => hnotin (by rw [he]; simp)
  obtain ⟨qv1, q1, seg1, segc⟩ := isSeg_split pseg
  rw [isSeg_cons] at segc
  obtain ⟨hq1, hclt, hcprev, seg2⟩ := segc
  obtain ⟨qv1o, q1o, seg1o, segco⟩ := isSeg_split hseg
  rw [isSeg_cons] at segco
  obtain ⟨-, -, hcprevo, -⟩ := segco
  have hndFinal : ((is₁ ++ n :: c :: is₂) ++ fs').Nodup := by
    have h1 : List.Perm ((is₁ ++ c :: is₂) ++ n :: fs')
        (n :: ((is₁ ++ c :: is₂) ++ fs')) := List.perm_middle
    have hstep := h1.nodup pnd
    have h2 : (is₁ ++ n :: c :: is₂) ++ fs' = is₁ ++ n :: (c :: is₂ ++ fs') := by simp
    have h3 : List.Perm (is₁ ++ n :: (c :: is₂ ++ fs'))
        (n :: (is₁ ++ (c :: is₂ ++ fs'))) := List.perm_middle
    have h4 : is₁ ++ (c :: is₂ ++ fs') = (is₁ ++ c :: is₂) ++ fs' := by simp
    rw [h2]
    refine List.Perm.nodup ?_ hstep
    have := h3.symm
    rwa [h4] at this
  have hcnt' : (is₁ ++ n :: c :: is₂).length + fs'.length = l₁.nodes.length := by
    simp only [List.length_append, List.length_cons] at pcnt ⊢
    omega
  have heval0 : insert_prev l c ix v =
      (match prevOf l.nodes c with
        | none =>
          ({ l₁ with len := l₁.len + 1, nodes := setPrev l₁.nodes c (some n),
                     head := some n }, ix + 1)
        | some pp =>
          ({ l₁ with len := l₁.len + 1,
                     nodes := setNext (setPrev l₁.nodes c (some n)) pp (some n) },
           ix + 1)) := rfl
  rcases List.eq_nil_or_concat is₁ with hnil | ⟨is₁', pp, hcat⟩
  · subst hnil
    have hpv : prevOf l.nodes c = none := by
      rw [isSeg_nil] at seg1o
      rw [hcprevo, ← seg1o.1]
    have hpn : prevOf l₁.nodes n = none := by
      rw [prevOf, hn, pget, hpv]
    have hnl : nextOf l₁.nodes n = some c := by
      rw [nextOf, hn, pget]
    rw [hpv] at heval0
    simp only [] at heval0
    set ns' := setPrev l₁.nodes c (some n) with hns'
    have hnslen : ns'.length = l₁.nodes.length := by simp [hns', length_setPrev]
    have seg2' : isSeg ns' (some c) (nextOf l₁.nodes c) is₂ l.tail none := by
      refine isSeg_congr (by omega) ?_ ?_ seg2
      · intro i _
        rw [hns']
        exact nextOf_setPrev _ _ _ _
      · intro i hi
        rw [hns']
        exact prevOf_setPrev_ne _ _ _ (fun he => hc2 (by rw [he]; exact hi))
    have hchain : isSeg ns' none (some n) (n :: c :: is₂) l.tail none := by
      rw [isSeg_cons]
      refine ⟨rfl, by omega, ?_, ?_⟩
      · rw [hns', prevOf_setPrev_ne _ _ _ hnc.symm]
        exact hpn
      · have hx : nextOf ns' n = some c := by
          rw [hns', nextOf_setPrev]
          exact hnl
        rw [hx, isSeg_cons]
        refine ⟨rfl, by omega, ?_, ?_⟩
        · rw [hns']
          exact prevOf_setPrev_self _ (by omega)
        · have hy : nextOf ns' c = nextOf l₁.nodes c := by
            rw [hns']
            exact nextOf_setPrev _ _ _ _
          rw [hy]
          exact seg2'
    have hfree' : isFreeSeg ns' l₁.unused_nodes fs' none := by
      refine isFreeSeg_congr (by omega) ?_ pfree
      intro i _
      rw [hns']
      exact nextOf_setPrev _ _ _ _
    rw [heval0]
    refine ⟨n, fs', hnotin, ⟨?_, hfree', hndFinal, ?_, ?_, ?_, ?_⟩, ?_, ?_, ?_, rfl, ptail⟩
    · rw [ptail]
      simpa using hchain
    · simpa [hnslen] using hcnt'
    · simp only [List.length_append, List.length_cons] at hlen ⊢
      omega
    · simpa [hnslen] using pcap
    · exact pchunk
    · have hv : valOf ns' n = valOf l₁.nodes n := by rw [hns', valOf_setPrev]
      rw [hv, valOf, hn, pget]
    · intro i hi
      have hv : valOf ns' i = valOf l₁.nodes i := by rw [hns', valOf_setPrev]
      rw [hv]
      exact pval i hi
    · rw [plen]
  · rw [List.concat_eq_append] at hcat
    have hppmem : pp ∈ is₁ := by rw [hcat]; simp
    have hppc : pp ≠ c := fun he => hc1 (by rw [← he]; exact hppmem)
    have hppn : pp ≠ n := fun he => hnotin (by rw [← he]; simp [hppmem])
    have hppis₂ : pp ∉ is₂ := fun hmem =>
      (List.nodup_append.1 hndis).2.2 hppmem (by simp [hmem])
    have hppfs : pp ∉ n :: fs' :=
      (List.nodup_append.1 pnd).2.2 (by simp [hppmem])
    have hnd1 : is₁.Nodup := (List.nodup_append.1 hndis).1
    have hppis₁' : pp ∉ is₁' := by
      rw [hcat] at hnd1
      exact fun hmem => (List.nodup_append.1 hnd1).2.2 hmem (by simp)
    have hc1' : c ∉ is₁' := fun hmem => hc1 (by rw [hcat]; simp [hmem])
    have hqlast : qv1o = is₁.getLast? := isSeg_lastPtr seg1o
    have hpv : prevOf l.nodes c = some pp := by
      rw [hcprevo, hqlast, hcat, List.getLast?_concat]
    rw [hcat] at seg1
    obtain ⟨qv2, q2, seg1a, seg1b⟩ := isSeg_split seg1
    rw [isSeg_cons, isSeg_nil] at seg1b
    obtain ⟨hq2, hpplt, hppprev, hqv1', hq1'⟩ := seg1b
    have hpn : prevOf l₁.nodes n = some pp := by
      rw [prevOf, hn, pget, hpv]
    have hnl : nextOf l₁.nodes n = some c := by
      rw [nextOf, hn, pget]
    rw [hpv] at heval0
    simp only [] at heval0
    set ns₁ := setPrev l₁.nodes c (some n) with hns₁
    set ns' := setNext ns₁ pp (some n) with hns'
    have hns₁len : ns₁.length = l₁.nodes.length := by simp [hns₁, length_setPrev]
    have hnslen : ns'.length = l₁.nodes.length := by simp [hns', length_setNext, hns₁len]
    have hval' : ∀ i, valOf ns' i = valOf l₁.nodes i := by
      intro i
      rw [hns', valOf_setNext, hns₁, valOf_setPrev]
    have seg1a' : isSeg ns' none l.head is₁' qv2 (some pp) := by
      rw [hq2] at seg1a
      refine isSeg_congr (by omega) ?_ ?_ seg1a
      · intro i hi
        rw [hns', nextOf_setNext_ne _ _ _ (fun he => hppis₁' (by rw [he]; exact hi)), hns₁]
        exact nextOf_setPrev _ _ _ _
      · intro i hi
        rw [hns', prevOf_setNext, hns₁]
        exact prevOf_setPrev_ne _ _ _ (fun he => hc1' (by rw [he]; exact hi))
    have segPP : isSeg ns' qv2 (some pp) [pp] (some pp) (some n) := by
      rw [isSeg_cons, isSeg_nil]
      refine ⟨rfl, by omega, ?_, rfl, ?_⟩
      · rw [hns', prevOf_setNext, hns₁, prevOf_setPrev_ne _ _ _ hppc.symm]
        exact hppprev
      · rw [hns']
        exact nextOf_setNext_self _ (by omega)
    have segN : isSeg ns' (some pp) (some n) [n] (some n) (some c) := by
      rw [isSeg_cons, isSeg_nil]
      refine ⟨rfl, by omega, ?_, rfl, ?_⟩
      · rw [hns', prevOf_setNext, hns₁, prevOf_setPrev_ne _ _ _ hnc.symm]
        exact hpn
      · rw [hns', nextOf_setNext_ne _ _ _ hppn, hns₁, nextOf_setPrev]
        exact hnl
    have segC : isSeg ns' (some n) (some c) [c] (some c) (nextOf l₁.nodes c) := by
      rw [isSeg_cons, isSeg_nil]
      refine ⟨rfl, by omega, ?_, rfl, ?_⟩
      · rw [hns', prevOf_setNext, hns₁]
        exact prevOf_setPrev_self _ (by omega)
      · rw [hns', nextOf_setNext_ne _ _ _ hppc, hns₁]
        exact nextOf_setPrev _ _ _ _
    have segRest : isSeg ns' (some c) (nextOf l₁.nodes c) is₂ l.tail none := by
      refine isSeg_congr (by omega) ?_ ?_ seg2
      · intro i hi
        rw [hns', nextOf_setNext_ne _ _ _ (fun he => hppis₂ (by rw [he]; exact hi)), hns₁]
        exact nextOf_setPrev _ _ _ _
      · intro i hi
        rw [hns', prevOf_setNext, hns₁]
        exact prevOf_setPrev_ne _ _ _ (fun he => hc2 (by rw [he]; exact hi))
    have hchain : isSeg ns' none l.head (is₁ ++ n :: c :: is₂) l.tail none := by
      have := isSeg_append (isSeg_append (isSeg_append (isSeg_append seg1a' segPP) segN) segC)
        segRest
      rw [hcat]
      simpa using this
    have hfree' : isFreeSeg ns' l₁.unused_nodes fs' none := by
      refine isFreeSeg_congr (by omega) ?_ pfree
      intro i hi
      rw [hns', nextOf_setNext_ne _ _ _ (fun he => hppfs (by rw [he]; simp [hi])), hns₁]
      exact nextOf_setPrev _ _ _ _
    rw [heval0]
    refine ⟨n, fs', hnotin, ⟨?_, hfree', hndFinal, ?_, ?_, ?_, ?_⟩, ?_, ?_, ?_, rfl, ptail⟩
    · rw [phead, ptail]
      exact hchain
    · simpa [hnslen] using hcnt'
    · simp only [List.length_append, List.length_cons] at hlen ⊢
      omega
    · simpa [hnslen] using pcap
    · exact pchunk
    · rw [hval' n, hn, valOf, pget]
    · intro i hi
      rw [hval' i]
      exact pval i hi
    · rw [plen]

/-! ## Claim theorems -/

open LinkedList CursorMut

/-- The concrete operation sequence refuting the deque refinement: two
`push_front`s, a `pop_front`, then two `pop_back`s. -/
def exC1ops : List (DeqOp Nat) :=
  [DeqOp.pushF 10, DeqOp.pushF 20, DeqOp.popF, DeqOp.popB, DeqOp.popB]

/-- C1: the claim that every `push_back`/`push_front`/`pop_back`/`pop_front`
sequence from the empty list matches a reference deque step by step is FALSE on
the code.  `pop_front` leaves the new head's `prev` dangling at the freed node;
the subsequent singleton `pop_back` copies that dangling pointer into `tail`, so
a further `pop_back` on the now-empty list returns `Some` of the freed node's
value (and decrements `len` below zero) where the reference deque returns
`None`.  This theorem evaluates both traces at the failing sequence. -/
theorem C1_pop_trace_divergence :
    (execOps (LinkedList.new : LinkedList Nat) exC1ops).2 =
      [(none, 1), (none, 2), (some 20, 1), (some 10, 0), (some 20, 0)] ∧
    (modelOps ([] : List Nat) exC1ops).2 =
      [(none, 1), (none, 2), (some 20, 1), (some 10, 0), (none, 0)] ∧
    (execOps (LinkedList.new : LinkedList Nat) exC1ops).2 ≠
      (modelOps ([] : List Nat) exC1ops).2 := by
  refine ⟨by decide, by decide, by decide⟩

/-- The state after `push_back 1; push_back 2; pop_back` from `new`. -/
def exC2 : LinkedList Nat := (pop_back (push_back 2 (push_back 1 LinkedList.new))).2

/-- C2: the claimed invariant "the tail node's next link is none after every
public operation" is FALSE on the code: `pop_back` never clears the new tail's
`next` pointer.  After `push_back 1; push_back 2; pop_back`, the tail is slot 0
with `len = 1`, but slot 0's `next` still points at slot 1, which is now the
head of the free list. -/
theorem C2_tail_next_dangles :
    exC2.tail = some 0 ∧ exC2.len = 1 ∧
    nextOf exC2.nodes 0 = some 1 ∧ exC2.unused_nodes = some 1 ∧
    nextOf exC2.nodes 0 ≠ none := by
  refine ⟨by decide, by decide, by decide, by decide, by decide⟩

/-- The state after `set_chunk_size 4; push_front 10; push_front 20; pop_front;
pop_back; pop_back` from `new`. -/
def exC5 : LinkedList Nat :=
  (pop_back (pop_back (pop_front (push_front 20 (push_front 10
    (set_chunk_size 4 LinkedList.new)))).2).2).2

/-- C5: the claimed invariant "capacity() - len() equals the number of nodes
reachable from the free-list head" is FALSE after the failing sequence: the
final `pop_back` runs on an empty list whose `tail` dangles into the free list
(inherited from the earlier pops), re-discards an already-free slot — making the
free list cyclic with only 2 distinct reachable slots — while `capacity - len`
is 4 (in Rust, `len -= 1` on 0 additionally panics in debug or wraps in
release). -/
theorem C5_free_count_divergence :
    exC5.capacity = 4 ∧ exC5.len = 0 ∧
    freeReachable exC5 = [1, 0] ∧
    (freeReachable exC5).length ≠ exC5.capacity - exC5.len := by
  refine ⟨by decide, by decide, by decide, by decide⟩

/-- The two-element list `[1, 2]` built with capacity 2. -/
def exC6 : LinkedList Nat := push_back 2 (push_back 1 (with_capacity 2))

/-- C6: the claim that `remove_go_prev()` returns a cursor at the previous
neighbour, or none exactly when that neighbour does not exist, is FALSE on the
code: the source tests `next.is_null()` instead of `prev.is_null()`.  With the
cursor at the back of `[1, 2]` (index 1), the previous neighbour (value 1,
index 0) exists, yet `remove_go_prev` returns no cursor. -/
theorem C6_remove_go_prev_wrong_side :
    cursor_mut_back exC6 = some (1, 1) ∧
    prevOf exC6.nodes 1 = some 0 ∧ valOf exC6.nodes 0 = 1 ∧
    (remove_go_prev exC6 1 1).1 = 2 ∧
    (remove_go_prev exC6 1 1).2.1 = none := by
  refine ⟨by decide, by decide, by decide, by decide, by decide⟩

/-- A one-element list with one free slot. -/
def exC7a : LinkedList Nat := push_back 1 (with_capacity 2)

/-- An empty list with three free slots. -/
def exC7b : LinkedList Nat := with_capacity 3

/-- C7: the claim that `append` merges the free lists by traversing the shorter
one (min of the two free-slot counts) is FALSE on the code: the swap condition
`self.capacity - self.len < other.capacity - other.len` is evaluated after
`self`'s counters already absorbed `other`'s, so it can never hold and the walk
always traverses `other`'s whole free list.  Here `self` has 1 free slot and
`other` has 3; the code traverses 3 free-list nodes, not `min 1 3 = 1`. -/
theorem C7_append_walks_other_free_list :
    exC7a.capacity - exC7a.len = 1 ∧
    exC7b.capacity - exC7b.len = 3 ∧
    (append exC7a exC7b).2.2 = 3 ∧
    (append exC7a exC7b).2.2 ≠
      min (exC7a.capacity - exC7a.len) (exC7b.capacity - exC7b.len) := by
  refine ⟨by decide, by decide, by decide, by decide⟩

/-- C3: after `a.append(&mut b)` on well-formed lists, `a`'s element sequence is
the concatenation of the two old sequences, `b` is empty with zero capacity,
and `a`'s capacity is the sum of the two old capacities (the result is again
well-formed). -/
theorem C3_append_spec (a b : LinkedList T) (isa fsa isb fsb : List Nat)
    (ha : WfWith a isa fsa) (hb : WfWith b isb fsb) :
    seqOf (append a b).1 = seqOf a ++ seqOf b ∧
      (append a b).1.capacity = a.capacity + b.capacity ∧
      (append a b).1.len = a.len + b.len ∧
      (append a b).2.1.len = 0 ∧
      (append a b).2.1.capacity = 0 ∧
      seqOf (append a b).2.1 = [] ∧
      ∃ is' fs', WfWith (append a b).1 is' fs' := by
  obtain ⟨hwf, hmap⟩ := append_wf ha hb
  have hlen : (append a b).1.len = a.len + b.len := by
    have h := (appendSplice_spec ha hb).2.1
    exact h
  refine ⟨?_, rfl, hlen, rfl, rfl, rfl, _, _, hwf⟩
  rw [seqOf_eq hwf, hmap, ← seqOf_eq ha, ← seqOf_eq hb]

/-- Closed witness for C3: appending the singleton lists `[10]` and `[20]`. -/
theorem C3_append_spec_witness :
    WfWith (push_back 10 (with_capacity 1) : LinkedList Nat) [0] [] ∧
      WfWith (push_back 20 (with_capacity 1) : LinkedList Nat) [0] [] ∧
      (seqOf (append (push_back 10 (with_capacity 1))
          (push_back 20 (with_capacity 1) : LinkedList Nat)).1 =
        seqOf (push_back 10 (with_capacity 1) : LinkedList Nat) ++
          seqOf (push_back 20 (with_capacity 1) : LinkedList Nat) ∧
      (append (push_back 10 (with_capacity 1))
          (push_back 20 (with_capacity 1) : LinkedList Nat)).1.capacity =
        (push_back 10 (with_capacity 1) : LinkedList Nat).capacity +
          (push_back 20 (with_capacity 1) : LinkedList Nat).capacity ∧
      (append (push_back 10 (with_capacity 1))
          (push_back 20 (with_capacity 1) : LinkedList Nat)).1.len =
        (push_back 10 (with_capacity 1) : LinkedList Nat).len +
          (push_back 20 (with_capacity 1) : LinkedList Nat).len ∧
      (append (push_back 10 (with_capacity 1))
          (push_back 20 (with_capacity 1) : LinkedList Nat)).2.1.len = 0 ∧
      (append (push_back 10 (with_capacity 1))
          (push_back 20 (with_capacity 1) : LinkedList Nat)).2.1.capacity = 0 ∧
      seqOf (append (push_back 10 (with_capacity 1))
          (push_back 20 (with_capacity 1) : LinkedList Nat)).2.1 = [] ∧
      ∃ is' fs', WfWith (append (push_back 10 (with_capacity 1))
          (push_back 20 (with_capacity 1) : LinkedList Nat)).1 is' fs') :=
  ⟨by decide, by decide,
    C3_append_spec _ _ [0] [] [0] [] (by decide) (by decide)⟩

/-- C9: on a well-formed list, any interleaving of `next()` and `next_back()`
calls produces exactly the outputs of the two-ended reference consumer on the
element sequence — `next` takes successive elements of a front prefix, while
`next_back` takes successive elements of a back suffix, together yielding each
element exactly once and `none` once the shared remaining count hits zero — and
the remaining counts agree as well. -/
theorem C9_iter_interleaving (l : LinkedList T) (is fs : List Nat)
    (h : WfWith l is fs) (cmds : List Bool) :
    (IterSt.run l.nodes cmds (IterSt.iterOf l)).2 = (specRun cmds (seqOf l)).2 ∧
      (IterSt.run l.nodes cmds (IterSt.iterOf l)).1.len =
        (specRun cmds (seqOf l)).1.length := by
  have hinv : IterInv l.nodes is (IterSt.iterOf l) := by
    obtain ⟨hseg, -, -, -, hlen, -, -⟩ := h
    exact ⟨hlen, isSeg_mem_lt hseg, isSeg_chain' hseg,
      fun _ => ⟨isSeg_headPtr hseg, isSeg_lastPtr hseg⟩⟩
  obtain ⟨m', hinv', hmap', hout'⟩ := iter_run_inv cmds hinv
  rw [seqOf_eq h]
  refine ⟨hout', ?_⟩
  rw [hinv'.1, ← hmap']
  simp

/-- The list `[1, 2, 3]` (built with capacity 3), used to instantiate the
iterator theorems. -/
def exIter : LinkedList Nat := push_back 3 (push_back 2 (push_back 1 (with_capacity 3)))

/-- Closed witness for C9 on the list `[1, 2, 3]` and the interleaving
`next, next_back, next, next, next_back`. -/
theorem C9_iter_interleaving_witness :
    WfWith exIter [0, 1, 2] [] ∧
      ((IterSt.run exIter.nodes [true, false, true, true, false]
          (IterSt.iterOf exIter)).2 =
        (specRun [true, false, true, true, false] (seqOf exIter)).2 ∧
      (IterSt.run exIter.nodes [true, false, true, true, false]
          (IterSt.iterOf exIter)).1.len =
        (specRun [true, false, true, true, false] (seqOf exIter)).1.length) :=
  ⟨by decide, C9_iter_interleaving exIter [0, 1, 2] [] (by decide) _⟩

/-- C10: after any interleaving of `next()`/`next_back()` on a well-formed
list's iterator, `count()` returns exactly the number of remaining elements and
`last()` returns exactly the last remaining element (the one a forward drain
would yield last), both read off the stored snapshot. -/
theorem C10_iter_count_last (l : LinkedList T) (is fs : List Nat)
    (h : WfWith l is fs) (cmds : List Bool) :
    IterSt.count (IterSt.run l.nodes cmds (IterSt.iterOf l)).1 =
        (specRun cmds (seqOf l)).1.length ∧
      IterSt.last l.nodes (IterSt.run l.nodes cmds (IterSt.iterOf l)).1 =
        (specRun cmds (seqOf l)).1.getLast? := by
  have hinv : IterInv l.nodes is (IterSt.iterOf l) := by
    obtain ⟨hseg, -, -, -, hlen, -, -⟩ := h
    exact ⟨hlen, isSeg_mem_lt hseg, isSeg_chain' hseg,
      fun _ => ⟨isSeg_headPtr hseg, isSeg_lastPtr hseg⟩⟩
  obtain ⟨m', hinv', hmap', hout'⟩ := iter_run_inv cmds hinv
  rw [seqOf_eq h, ← hmap']
  obtain ⟨hlen', hmem', hch', hend'⟩ := hinv'
  constructor
  · rw [IterSt.count, hlen']
    simp
  · rcases m'.eq_nil_or_concat with rfl | ⟨m'', i, rfl⟩
    · have h0 : ¬ 0 < (IterSt.run l.nodes cmds (IterSt.iterOf l)).1.len := by simp [hlen']
      simp [IterSt.last, h0]
    · rw [List.concat_eq_append] at hlen' hend' ⊢
      have hpos : 0 < (IterSt.run l.nodes cmds (IterSt.iterOf l)).1.len := by simp [hlen']
      have htl : (IterSt.run l.nodes cmds (IterSt.iterOf l)).1.tail = some i := by
        rw [(hend' (by simp)).2]
        simp
      simp [IterSt.last, hpos, htl]

/-- Closed witness for C10 on the list `[1, 2, 3]` and the interleaving
`next, next_back`. -/
theorem C10_iter_count_last_witness :
    WfWith exIter [0, 1, 2] [] ∧
      (IterSt.count (IterSt.run exIter.nodes [true, false] (IterSt.iterOf exIter)).1 =
        (specRun [true, false] (seqOf exIter)).1.length ∧
      IterSt.last exIter.nodes (IterSt.run exIter.nodes [true, false]
          (IterSt.iterOf exIter)).1 =
        (specRun [true, false] (seqOf exIter)).1.getLast?) :=
  ⟨by decide, C10_iter_count_last exIter [0, 1, 2] [] (by decide) _⟩

/-- Inserting at position `m₁.length` of `m₁ ++ m₂` lands between the two
parts. -/
theorem insertIdx_at_append {α : Type} (m₁ m₂ : List α) (v : α) :
    List.insertIdx m₁.length v (m₁ ++ m₂) = m₁ ++ v :: m₂ := by
  induction m₁ with
  | nil => simp [List.insertIdx_zero]
  | cons a m₁ ih => simp [List.insertIdx_succ_cons, ih]

/-- The list `[1, 2, 3]` built with capacity 4 (live chain `[0, 1, 2]`, one
free slot `3`); the cursor at its front is on node `0` at index `0`. -/
def exC8 : LinkedList Nat := push_back 3 (push_back 2 (push_back 1 (with_capacity 4)))

open CursorMut in
/-- C8: with the cursor on node `c` at index `is₁.length` of a well-formed list
(live chain `is₁ ++ c :: is₂`), `insert_next v` splices one fresh node holding
`v` directly after the cursor — the element sequence gains `v` at index
`is₁.length + 1` while node `c` keeps index `is₁.length` and its value — and
`insert_prev v` splices the fresh node directly before the cursor — the
sequence gains `v` at index `is₁.length`, the returned cursor index is `ix + 1`
and node `c` moves to index `is₁.length + 1`; both grow `len` by one.  In
particular, with the cursor at the front of `[1, 2, 3]`, `insert_next 9` makes
the sequence `[1, 9, 2, 3]` with the cursor still on the head node holding
`1`. -/
theorem C8_cursor_insert {l : LinkedList T} {fs is₁ is₂ : List Nat} {c : Nat}
    (h : WfWith l (is₁ ++ c :: is₂) fs) (ix : Nat) (v : T) :
    (seqOf (insert_next l c v) = (seqOf l).insertIdx (is₁.length + 1) v ∧
      (insert_next l c v).len = l.len + 1 ∧
      ∃ n fs', n ∉ is₁ ++ c :: is₂ ∧
        WfWith (insert_next l c v) (is₁ ++ c :: n :: is₂) fs' ∧
        valOf (insert_next l c v).nodes n = v ∧
        valOf (insert_next l c v).nodes c = valOf l.nodes c) ∧
    (seqOf (insert_prev l c ix v).1 = (seqOf l).insertIdx is₁.length v ∧
      (insert_prev l c ix v).1.len = l.len + 1 ∧
      (insert_prev l c ix v).2 = ix + 1 ∧
      ∃ n fs', n ∉ is₁ ++ c :: is₂ ∧
        WfWith (insert_prev l c ix v).1 (is₁ ++ n :: c :: is₂) fs' ∧
        valOf (insert_prev l c ix v).1.nodes n = v ∧
        valOf (insert_prev l c ix v).1.nodes c = valOf l.nodes c) ∧
    (seqOf (insert_next exC8 0 9) = [1, 9, 2, 3] ∧
      (insert_next exC8 0 9).head = some 0 ∧
      valOf (insert_next exC8 0 9).nodes 0 = 1) := by
  obtain ⟨n, fs', hni, hwf, hv, hvals, hlen1, hhead⟩ := insert_next_wf h v
  obtain ⟨n2, fs2, hni2, hwf2, hv2, hvals2, hlen2, hix2, htl2⟩ := insert_prev_wf h ix v
  refine ⟨⟨?_, hlen1, n, fs', hni, hwf, hv, hvals c (by simp)⟩,
          ⟨?_, hlen2, hix2, n2, fs2, hni2, hwf2, hv2, hvals2 c (by simp)⟩,
          by decide, by decide, by decide⟩
  · rw [seqOf_eq hwf, seqOf_eq h]
    have h1 : is₁.map (valOf (insert_next l c v).nodes) = is₁.map (valOf l.nodes) :=
      valMap_congr_val (fun i hi => hvals i (by simp [hi]))
    have h2 : is₂.map (valOf (insert_next l c v).nodes) = is₂.map (valOf l.nodes) :=
      valMap_congr_val (fun i hi => hvals i (by simp [hi]))
    have hcv : valOf (insert_next l c v).nodes c = valOf l.nodes c := hvals c (by simp)
    have hbase : (is₁ ++ c :: is₂).map (valOf l.nodes) =
        (is₁.map (valOf l.nodes) ++ [valOf l.nodes c]) ++ is₂.map (valOf l.nodes) := by
      simp
    have hlen1' : is₁.length + 1 =
        (is₁.map (valOf l.nodes) ++ [valOf l.nodes c]).length := by
      simp
    rw [hbase, hlen1', insertIdx_at_append]
    simp [h1, h2, hcv, hv]
  · rw [seqOf_eq hwf2, seqOf_eq h]
    have h1 : is₁.map (valOf (insert_prev l c ix v).1.nodes) = is₁.map (valOf l.nodes) :=
      valMap_congr_val (fun i hi => hvals2 i (by simp [hi]))
    have h2 : is₂.map (valOf (insert_prev l c ix v).1.nodes) = is₂.map (valOf l.nodes) :=
      valMap_congr_val (fun i hi => hvals2 i (by simp [hi]))
    have hcv : valOf (insert_prev l c ix v).1.nodes c = valOf l.nodes c :=
      hvals2 c (by simp)
    have hbase : (is₁ ++ c :: is₂).map (valOf l.nodes) =
        is₁.map (valOf l.nodes) ++ (valOf l.nodes c :: is₂.map (valOf l.nodes)) := by
      simp
    have hlen2' : is₁.length = (is₁.map (valOf l.nodes)).length := by
      simp
    rw [hbase, hlen2', insertIdx_at_append]
    simp [h1, h2, hcv, hv2]

open CursorMut in
/-- Closed witness for C8: the scenario list `[1, 2, 3]` (chain `[0, 1, 2]`,
free list `[3]`) with the cursor at the front (node `0`, index `0`), inserting
`9`. -/
theorem C8_cursor_insert_witness :
    WfWith exC8 [0, 1, 2] [3] ∧
      ((seqOf (insert_next exC8 0 9) = (seqOf exC8).insertIdx 1 9 ∧
        (insert_next exC8 0 9).len = exC8.len + 1 ∧
        ∃ n fs', n ∉ [0, 1, 2] ∧
          WfWith (insert_next exC8 0 9) [0, n, 1, 2] fs' ∧
          valOf (insert_next exC8 0 9).nodes n = 9 ∧
          valOf (insert_next exC8 0 9).nodes 0 = valOf exC8.nodes 0) ∧
      (seqOf (insert_prev exC8 0 0 9).1 = (seqOf exC8).insertIdx 0 9 ∧
        (insert_prev exC8 0 0 9).1.len = exC8.len + 1 ∧
        (insert_prev exC8 0 0 9).2 = 0 + 1 ∧
        ∃ n fs', n ∉ [0, 1, 2] ∧
          WfWith (insert_prev exC8 0 0 9).1 [n, 0, 1, 2] fs' ∧
          valOf (insert_prev exC8 0 0 9).1.nodes n = 9 ∧
          valOf (insert_prev exC8 0 0 9).1.nodes 0 = valOf exC8.nodes 0) ∧
      (seqOf (insert_next exC8 0 9) = [1, 9, 2, 3] ∧
        (insert_next exC8 0 9).head = some 0 ∧
        valOf (insert_next exC8 0 9).nodes 0 = 1)) :=
  ⟨by decide, @C8_cursor_insert Nat inferInstance exC8 [3] [] [1, 2] 0 (by decide) 0 9⟩

/-- Redirecting the last node of a `next`-linked segment (with any exit
pointer) to a new target `r`. -/
theorem isFreeSeg_relink_last' {ns : List (LinkedNode T)} {p qa : Option Nat}
    {is : List Nat} {t : Nat} (h : isFreeSeg ns p (is ++ [t]) qa)
    (hnd : (is ++ [t]).Nodup) (r : Option Nat) :
    isFreeSeg (setNext ns t r) p (is ++ [t]) r := by
  obtain ⟨q, h₁, h₂⟩ := isFreeSeg_split h
  rw [isFreeSeg_cons, isFreeSeg_nil] at h₂
  obtain ⟨hq, htlt, -⟩ := h₂
  have htis : t ∉ is := fun hm => (List.nodup_append.1 hnd).2.2 hm (by simp)
  refine isFreeSeg_append (q := some t) ?_ ?_
  · rw [hq] at h₁
    refine isFreeSeg_congr (by simp [length_setNext]) ?_ h₁
    intro i hi
    exact nextOf_setNext_ne _ _ _ (fun he => htis (by rw [he]; exact hi))
  · rw [isFreeSeg_cons, isFreeSeg_nil]
    exact ⟨rfl, by simp [length_setNext, htlt], nextOf_setNext_self _ htlt⟩

/-- The `retain_map` loop invariant: running the loop over the remaining
original chain `is₂` (behind the already rebuilt chain `acc` and the current
free list `fsc`) consumes every remaining value in order through `f`
(threading the closure state), keeps exactly the nodes for which `f` returned
a replacement — written back in place, in their original relative order,
linked behind `acc` — and pushes every dropped node's slot onto the free
list. -/
theorem retainLoop_spec {S : Type} (f : S → T → S × Option T) (is₂ : List Nat) :
    ∀ (st : RetainSt T S) (acc fsc : List Nat),
      isFreeSeg st.nodes st.ptr is₂ none →
      isFreeSeg st.nodes st.unused fsc none →
      (∃ qa, isFreeSeg st.nodes st.new_head acc qa) →
      st.new_head = acc.head? →
      st.last_retain = acc.getLast? →
      (acc ++ (is₂ ++ fsc)).Nodup →
      st.retained = acc.length →
      ∃ is' ds,
        is'.Sublist is₂ ∧
        List.Perm (is' ++ ds) is₂ ∧
        (retainLoop f is₂.length st).s =
          (retainSpec f st.s (is₂.map (valOf st.nodes))).1 ∧
        (retainLoop f is₂.length st).retained = acc.length + is'.length ∧
        (retainLoop f is₂.length st).new_head = (acc ++ is').head? ∧
        (retainLoop f is₂.length st).last_retain = (acc ++ is').getLast? ∧
        (∃ qa, isFreeSeg (retainLoop f is₂.length st).nodes
          (retainLoop f is₂.length st).new_head (acc ++ is') qa) ∧
        isFreeSeg (retainLoop f is₂.length st).nodes
          (retainLoop f is₂.length st).unused (ds ++ fsc) none ∧
        (∀ i ∈ acc, valOf (retainLoop f is₂.length st).nodes i = valOf st.nodes i) ∧
        is'.map (valOf (retainLoop f is₂.length st).nodes) =
          (retainSpec f st.s (is₂.map (valOf st.nodes))).2 ∧
        (retainLoop f is₂.length st).nodes.length = st.nodes.length := by
  induction is₂ with
  | nil =>
    intro st acc fsc hrem hfree hacc hnh hlr hnd hret
    have h0 : retainLoop f ([] : List Nat).length st = st := rfl
    rw [h0]
    exact ⟨[], [], by simp, by simp, by simp [retainSpec], by simp [hret],
      by simp [hnh], by simp [hlr], by simpa using hacc, by simpa using hfree,
      fun i _ => rfl, by simp [retainSpec], rfl⟩
  | cons p is₂' ih =>
    intro st acc fsc hrem hfree hacc hnh hlr hnd hret
    rw [isFreeSeg_cons] at hrem
    obtain ⟨hp, hplt, hrest⟩ := hrem
    obtain ⟨qa, haccseg⟩ := hacc
    have hpacc : p ∉ acc := fun hm =>
      (List.nodup_append.1 hnd).2.2 hm (by simp)
    have hnd2 : ((p :: is₂') ++ fsc).Nodup := (List.nodup_append.1 hnd).2.1
    have hpis : p ∉ is₂' := (List.nodup_cons.1 (List.nodup_append.1 hnd2).1).1
    have hpfsc : p ∉ fsc := fun hm => (List.nodup_append.1 hnd2).2.2 (by simp) hm
    rcases hf : f st.s (valOf st.nodes p) with ⟨s', r⟩
    rcases r with _ | w
    · -- `f` dropped the value: the slot is pushed onto the free list
      set ns1 := setNext st.nodes p st.unused with hns1
      have hlen1 : ns1.length = st.nodes.length := by simp [hns1, length_setNext]
      set st1 : RetainSt T S :=
        { nodes := ns1, unused := some p, ptr := nextOf st.nodes p,
          last_retain := st.last_retain, new_head := st.new_head,
          retained := st.retained, s := s' } with hst1
      have heval : retainLoop f (p :: is₂').length st = retainLoop f is₂'.length st1 := by
        simp [retainLoop, hp, hf, hst1, hns1]
      have hrem' : isFreeSeg ns1 (nextOf st.nodes p) is₂' none := by
        refine isFreeSeg_congr (by omega) ?_ hrest
        intro i hi
        rw [hns1]
        exact nextOf_setNext_ne _ _ _ (fun he => hpis (by rw [he]; exact hi))
      have hfree' : isFreeSeg ns1 (some p) (p :: fsc) none := by
        rw [isFreeSeg_cons]
        refine ⟨rfl, by omega, ?_⟩
        have hx : nextOf ns1 p = st.unused := by
          rw [hns1]
          exact nextOf_setNext_self _ hplt
        rw [hx]
        refine isFreeSeg_congr (by omega) ?_ hfree
        intro i hi
        rw [hns1]
        exact nextOf_setNext_ne _ _ _ (fun he => hpfsc (by rw [he]; exact hi))
      have hacc' : ∃ qa2, isFreeSeg ns1 st.new_head acc qa2 := by
        refine ⟨qa, isFreeSeg_congr (by omega) ?_ haccseg⟩
        intro i hi
        rw [hns1]
        exact nextOf_setNext_ne _ _ _ (fun he => hpacc (by rw [he]; exact hi))
      have hnd' : (acc ++ (is₂' ++ p :: fsc)).Nodup := by
        have h0 := hnd
        rw [List.cons_append] at h0
        have hpm : List.Perm (p :: (is₂' ++ fsc)) (is₂' ++ p :: fsc) :=
          List.perm_middle.symm
        exact (List.Perm.append_left acc hpm).nodup h0
      obtain ⟨is'', ds'', hsub, hperm, hs, hretd, hnh'', hlr'', hchain', hfree'',
        hvacc, hvmap, hlen'⟩ := ih st1 acc (p :: fsc) hrem' hfree' hacc' hnh hlr hnd' hret
      have hs0 : (retainLoop f is₂'.length st1).s =
          (retainSpec f s' (is₂'.map (valOf ns1))).1 := hs
      have hvmap0 : is''.map (valOf (retainLoop f is₂'.length st1).nodes) =
          (retainSpec f s' (is₂'.map (valOf ns1))).2 := hvmap
      have hmv : is₂'.map (valOf ns1) = is₂'.map (valOf st.nodes) :=
        valMap_congr_val (fun i _ => by rw [hns1, valOf_setNext])
      have hs1 : (retainSpec f st.s ((p :: is₂').map (valOf st.nodes))).1 =
          (retainSpec f s' (is₂'.map (valOf st.nodes))).1 := by
        simp [retainSpec, hf]
      have hs2 : (retainSpec f st.s ((p :: is₂').map (valOf st.nodes))).2 =
          (retainSpec f s' (is₂'.map (valOf st.nodes))).2 := by
        simp [retainSpec, hf]
      rw [heval]
      refine ⟨is'', ds'' ++ [p], List.Sublist.cons p hsub, ?_, ?_, hretd, hnh'', hlr'',
        hchain', ?_, ?_, ?_, hlen'.trans hlen1⟩
      · have h1 : is'' ++ (ds'' ++ [p]) = (is'' ++ ds'') ++ p :: ([] : List Nat) := by simp
        have hpm : List.Perm ((is'' ++ ds'') ++ p :: ([] : List Nat))
            (p :: ((is'' ++ ds'') ++ ([] : List Nat))) := List.perm_middle
        rw [h1]
        refine hpm.trans ?_
        have h2 : (is'' ++ ds'') ++ ([] : List Nat) = is'' ++ ds'' := by simp
        rw [h2]
        exact hperm.cons p
      · rw [hs0, hmv, hs1]
      · have hl : (ds'' ++ [p]) ++ fsc = ds'' ++ p :: fsc := by simp
        rw [hl]
        exact hfree''
      · intro i hi
        have h0 : valOf (retainLoop f is₂'.length st1).nodes i = valOf ns1 i :=
          hvacc i hi
        rw [h0, hns1, valOf_setNext]
      · rw [hvmap0, hmv, hs2]
    · -- `f` produced a replacement: the node is kept and relinked behind `acc`
      rcases List.eq_nil_or_concat acc with hacc0 | ⟨acc'', lr, hcat⟩
      · subst hacc0
        have hlr0 : st.last_retain = none := by simpa using hlr
        set ns3 := setPrev (setVal st.nodes p w) p none with hns3
        have hlen3 : ns3.length = st.nodes.length := by
          simp [hns3, length_setPrev, length_setVal]
        have hnext3 : ∀ i, nextOf ns3 i = nextOf st.nodes i := by
          intro i
          rw [hns3, nextOf_setPrev, nextOf_setVal]
        have hval3ne : ∀ i, p ≠ i → valOf ns3 i = valOf st.nodes i := by
          intro i hne
          rw [hns3, valOf_setPrev]
          simp [valOf, getN_setVal_ne st.nodes p w hne]
        have hval3p : valOf ns3 p = w := by
          rw [hns3, valOf_setPrev]
          simp [valOf, getN_setVal_self st.nodes w hplt]
        set st1 : RetainSt T S :=
          { nodes := ns3, unused := st.unused, ptr := nextOf st.nodes p,
            last_retain := some p, new_head := some p,
            retained := st.retained + 1, s := s' } with hst1
        have heval : retainLoop f (p :: is₂').length st =
            retainLoop f is₂'.length st1 := by
          simp [retainLoop, hp, hf, hlr0, hst1, hns3]
        have hrem' : isFreeSeg ns3 (nextOf st.nodes p) is₂' none :=
          isFreeSeg_congr (by omega) (fun i _ => hnext3 i) hrest
        have hfree' : isFreeSeg ns3 st.unused fsc none :=
          isFreeSeg_congr (by omega) (fun i _ => hnext3 i) hfree
        have hacc' : ∃ qa2, isFreeSeg ns3 (some p) [p] qa2 := by
          refine ⟨nextOf ns3 p, ?_⟩
          rw [isFreeSeg_cons, isFreeSeg_nil]
          exact ⟨rfl, by omega, rfl⟩
        have hnd' : ([p] ++ (is₂' ++ fsc)).Nodup := by simpa using hnd
        have hret' : st.retained + 1 = ([p] : List Nat).length := by simp [hret]
        obtain ⟨is'', ds'', hsub, hperm, hs, hretd, hnh'', hlr'', hchain', hfree'',
          hvacc, hvmap, hlen'⟩ :=
          ih st1 [p] fsc hrem' hfree' hacc' rfl rfl hnd' hret'
        have hs0 : (retainLoop f is₂'.length st1).s =
            (retainSpec f s' (is₂'.map (valOf ns3))).1 := hs
        have hvmap0 : is''.map (valOf (retainLoop f is₂'.length st1).nodes) =
            (retainSpec f s' (is₂'.map (valOf ns3))).2 := hvmap
        have hmv : is₂'.map (valOf ns3) = is₂'.map (valOf st.nodes) :=
          valMap_congr_val (fun i hi => hval3ne i (fun he => hpis (by rw [he]; exact hi)))
        have hs1 : (retainSpec f st.s ((p :: is₂').map (valOf st.nodes))).1 =
            (retainSpec f s' (is₂'.map (valOf st.nodes))).1 := by
          simp [retainSpec, hf]
        have hs2 : (retainSpec f st.s ((p :: is₂').map (valOf st.nodes))).2 =
            w :: (retainSpec f s' (is₂'.map (valOf st.nodes))).2 := by
          simp [retainSpec, hf]
        rw [heval]
        refine ⟨p :: is'', ds'', List.Sublist.cons₂ p hsub, hperm.cons p, ?_, ?_,
          hnh'', hlr'', hchain', hfree'', ?_, ?_, hlen'.trans hlen3⟩
        · rw [hs0, hmv, hs1]
        · have h0 : (retainLoop f is₂'.length st1).retained =
              ([p] : List Nat).length + is''.length := hretd
          simp only [List.length_nil, List.length_cons] at h0 ⊢
          omega
        · exact fun i hi => absurd hi (List.not_mem_nil i)
        · have hvp : valOf (retainLoop f is₂'.length st1).nodes p = w := by
            have h0 : valOf (retainLoop f is₂'.length st1).nodes p = valOf ns3 p :=
              hvacc p (by simp)
            rw [h0, hval3p]
          rw [List.map_cons, hvp, hvmap0, hmv, hs2]
      · rw [List.concat_eq_append] at hcat
        have hlr1 : st.last_retain = some lr := by
          rw [hlr, hcat, List.getLast?_concat]
        have haccne : acc ≠ [] := by rw [hcat]; simp
        have hlracc : lr ∈ acc := by rw [hcat]; simp
        have hlrrest : lr ∉ (p :: is₂') ++ fsc := fun hm =>
          (List.nodup_append.1 hnd).2.2 hlracc hm
        have hlris : lr ∉ is₂' := fun hm => hlrrest (by simp [hm])
        have hlrfsc : lr ∉ fsc := fun hm => hlrrest (by simp [hm])
        have haccnd : acc.Nodup := (List.nodup_append.1 hnd).1
        set ns3 := setPrev (setNext (setVal st.nodes p w) lr (some p)) p (some lr)
          with hns3
        have hlen3 : ns3.length = st.nodes.length := by
          simp [hns3, length_setPrev, length_setNext, length_setVal]
        have hnext3ne : ∀ i, lr ≠ i → nextOf ns3 i = nextOf st.nodes i := by
          intro i hne
          rw [hns3, nextOf_setPrev, nextOf_setNext_ne _ _ _ hne, nextOf_setVal]
        have hval3ne : ∀ i, p ≠ i → valOf ns3 i = valOf st.nodes i := by
          intro i hne
          rw [hns3, valOf_setPrev, valOf_setNext]
          simp [valOf, getN_setVal_ne st.nodes p w hne]
        have hval3p : valOf ns3 p = w := by
          rw [hns3, valOf_setPrev, valOf_setNext]
          simp [valOf, getN_setVal_self st.nodes w hplt]
        have step1 : isFreeSeg (setVal st.nodes p w) st.new_head acc qa :=
          isFreeSeg_congr (by simp [length_setVal])
            (fun i _ => by rw [nextOf_setVal]) haccseg
        have step2 : isFreeSeg (setNext (setVal st.nodes p w) lr (some p))
            st.new_head acc (some p) := by
          have s1' : isFreeSeg (setVal st.nodes p w) st.new_head (acc'' ++ [lr]) qa := by
            rw [← hcat]
            exact step1
          have s2' := isFreeSeg_relink_last' s1' (by rw [← hcat]; exact haccnd) (some p)
          rw [hcat]
          exact s2'
        have step3 : isFreeSeg ns3 st.new_head acc (some p) := by
          refine isFreeSeg_congr (by simp [hns3, length_setPrev]) ?_ step2
          intro i _
          rw [hns3, nextOf_setPrev]
        have step4 : isFreeSeg ns3 (some p) [p] (nextOf ns3 p) := by
          rw [isFreeSeg_cons, isFreeSeg_nil]
          exact ⟨rfl, by omega, rfl⟩
        have haccP : isFreeSeg ns3 st.new_head (acc ++ [p]) (nextOf ns3 p) :=
          isFreeSeg_append step3 step4
        set st1 : RetainSt T S :=
          { nodes := ns3, unused := st.unused, ptr := nextOf st.nodes p,
            last_retain := some p, new_head := st.new_head,
            retained := st.retained + 1, s := s' } with hst1
        have heval : retainLoop f (p :: is₂').length st =
            retainLoop f is₂'.length st1 := by
          simp [retainLoop, hp, hf, hlr1, hst1, hns3]
        have hrem' : isFreeSeg ns3 (nextOf st.nodes p) is₂' none :=
          isFreeSeg_congr (by omega)
            (fun i hi => hnext3ne i (fun he => hlris (by rw [he]; exact hi))) hrest
        have hfree' : isFreeSeg ns3 st.unused fsc none :=
          isFreeSeg_congr (by omega)
            (fun i hi => hnext3ne i (fun he => hlrfsc (by rw [he]; exact hi))) hfree
        have hacc' : ∃ qa2, isFreeSeg ns3 st.new_head (acc ++ [p]) qa2 := ⟨_, haccP⟩
        have hnh' : st.new_head = (acc ++ [p]).head? := by
          rw [hnh]
          exact (List.head?_append_of_ne_nil acc haccne).symm
        have hlr' : (some p : Option Nat) = (acc ++ [p]).getLast? := by
          rw [List.getLast?_concat]
        have hnd' : ((acc ++ [p]) ++ (is₂' ++ fsc)).Nodup := by
          have h0 := hnd
          rw [List.cons_append] at h0
          simpa using h0
        have hret' : st.retained + 1 = (acc ++ [p]).length := by simp [hret]
        obtain ⟨is'', ds'', hsub, hperm, hs, hretd, hnh'', hlr'', hchain', hfree'',
          hvacc, hvmap, hlen'⟩ :=
          ih st1 (acc ++ [p]) fsc hrem' hfree' hacc' hnh' hlr' hnd' hret'
        have hs0 : (retainLoop f is₂'.length st1).s =
            (retainSpec f s' (is₂'.map (valOf ns3))).1 := hs
        have hvmap0 : is''.map (valOf (retainLoop f is₂'.length st1).nodes) =
            (retainSpec f s' (is₂'.map (valOf ns3))).2 := hvmap
        have hmv : is₂'.map (valOf ns3) = is₂'.map (valOf st.nodes) :=
          valMap_congr_val (fun i hi => hval3ne i (fun he => hpis (by rw [he]; exact hi)))
        have hs1 : (retainSpec f st.s ((p :: is₂').map (valOf st.nodes))).1 =
            (retainSpec f s' (is₂'.map (valOf st.nodes))).1 := by
          simp [retainSpec, hf]
        have hs2 : (retainSpec f st.s ((p :: is₂').map (valOf st.nodes))).2 =
            w :: (retainSpec f s' (is₂'.map (valOf st.nodes))).2 := by
          simp [retainSpec, hf]
        have hle : (acc ++ [p]) ++ is'' = acc ++ p :: is'' := by simp
        rw [heval]
        refine ⟨p :: is'', ds'', List.Sublist.cons₂ p hsub, hperm.cons p, ?_, ?_,
          ?_, ?_, ?_, hfree'', ?_, ?_, hlen'.trans hlen3⟩
        · rw [hs0, hmv, hs1]
        · have h0 : (retainLoop f is₂'.length st1).retained =
              (acc ++ [p]).length + is''.length := hretd
          simp only [List.length_append, List.length_cons] at h0 ⊢
          omega
        · have h0 : (retainLoop f is₂'.length st1).new_head =
              ((acc ++ [p]) ++ is'').head? := hnh''
          rw [h0, hle]
        · have h0 : (retainLoop f is₂'.length st1).last_retain =
              ((acc ++ [p]) ++ is'').getLast? := hlr''
          rw [h0, hle]
        · obtain ⟨qa2, hq⟩ := hchain'
          rw [hle] at hq
          exact ⟨qa2, hq⟩
        · intro i hi
          have h0 : valOf (retainLoop f is₂'.length st1).nodes i = valOf ns3 i :=
            hvacc i (by simp [hi])
          rw [h0]
          exact hval3ne i (fun he => hpacc (by rw [he]; exact hi))
        · have hvp : valOf (retainLoop f is₂'.length st1).nodes p = w := by
            have h0 : valOf (retainLoop f is₂'.length st1).nodes p = valOf ns3 p :=
              hvacc p (by simp)
            rw [h0, hval3p]
          rw [List.map_cons, hvp, hvmap0, hmv, hs2]

/-- C4: on a well-formed list, `retain_map f` consumes every element exactly
once in front-to-back order through the (stateful) closure — the closure's
final state is that of the left-to-right reference fold `retainSpec` — keeps
exactly the nodes for which `f` returned a replacement (written back into the
same node, original relative order preserved), sends every dropped node's slot
to the free list, and on completion `head`/`tail`/`len` describe exactly the
retained subsequence while `capacity` keeps its pre-call value. -/
theorem C4_retain_map {S : Type} (l : LinkedList T) (is fs : List Nat)
    (h : WfWith l is fs) (f : S → T → S × Option T) (s0 : S) :
    (retain_map f s0 l).2 = (retainSpec f s0 (seqOf l)).1 ∧
    seqOf (retain_map f s0 l).1 = (retainSpec f s0 (seqOf l)).2 ∧
    (retain_map f s0 l).1.len = (retainSpec f s0 (seqOf l)).2.length ∧
    (retain_map f s0 l).1.capacity = l.capacity ∧
    ∃ is' ds, is'.Sublist is ∧ List.Perm (is' ++ ds) is ∧
      (retain_map f s0 l).1.head = is'.head? ∧
      (retain_map f s0 l).1.tail = is'.getLast? ∧
      is'.map (valOf (retain_map f s0 l).1.nodes) = (retainSpec f s0 (seqOf l)).2 ∧
      isFreeSeg (retain_map f s0 l).1.nodes (retain_map f s0 l).1.unused_nodes
        (ds ++ fs) none := by
  obtain ⟨hseg, hfree, hnd, hcnt, hlen, hcap, hchunk⟩ := h
  by_cases h0 : l.len = 0
  · have hisnil : is = [] := by
      refine List.eq_nil_of_length_eq_zero ?_
      omega
    subst hisnil
    rw [isSeg_nil] at hseg
    have hhead : l.head = none := hseg.2
    have htail : l.tail = none := hseg.1.symm
    have heval : retain_map f s0 l = (l, s0) := by simp [retain_map, h0]
    have hseq : seqOf l = [] := by rw [seqOf, h0, hhead]; rfl
    rw [heval, hseq]
    refine ⟨rfl, ?_, ?_, rfl, [], [], by simp, by simp, ?_, ?_, by simp [retainSpec],
      by simpa using hfree⟩
    · rfl
    · show l.len = (retainSpec f s0 []).2.length
      simp [retainSpec, h0]
    · show l.head = ([] : List Nat).head?
      simp [hhead]
    · show l.tail = ([] : List Nat).getLast?
      simp [htail]
  · set st0 : RetainSt T S :=
      { nodes := l.nodes, unused := l.unused_nodes, ptr := l.head,
        last_retain := none, new_head := none, retained := 0, s := s0 } with hst0
    have heval : retain_map f s0 l =
        ({ l with nodes := (retainLoop f l.len st0).nodes,
                  unused_nodes := (retainLoop f l.len st0).unused,
                  head := (retainLoop f l.len st0).new_head,
                  tail := (retainLoop f l.len st0).last_retain,
                  len := (retainLoop f l.len st0).retained,
                  capacity := l.capacity },
         (retainLoop f l.len st0).s) := by
      simp [retain_map, h0, hst0]
    rw [hlen] at heval
    obtain ⟨is', ds, hsub, hperm, hs, hretd, hnh', hlr', hchain, hfreeR, hvacc,
      hvmap, hlenR⟩ :=
      retainLoop_spec f is st0 [] fs (isSeg_toFree hseg) hfree ⟨none, rfl⟩ rfl rfl
        (by simpa using hnd) rfl
    have hs' : (retainLoop f is.length st0).s =
        (retainSpec f s0 (is.map (valOf l.nodes))).1 := hs
    have hvmap' : is'.map (valOf (retainLoop f is.length st0).nodes) =
        (retainSpec f s0 (is.map (valOf l.nodes))).2 := hvmap
    have hseqL : seqOf l = is.map (valOf l.nodes) :=
      seqOf_eq ⟨hseg, hfree, hnd, hcnt, hlen, hcap, hchunk⟩
    have hret0 : (retainLoop f is.length st0).retained = is'.length := by
      simpa using hretd
    have hnh0 : (retainLoop f is.length st0).new_head = is'.head? := by
      simpa using hnh'
    have hlr0 : (retainLoop f is.length st0).last_retain = is'.getLast? := by
      simpa using hlr'
    obtain ⟨qa, hq⟩ := hchain
    have hq' : isFreeSeg (retainLoop f is.length st0).nodes
        (retainLoop f is.length st0).new_head is' qa := by
      simpa using hq
    rw [heval]
    refine ⟨?_, ?_, ?_, rfl, is', ds, hsub, hperm, ?_, ?_, ?_, ?_⟩
    · show (retainLoop f is.length st0).s = (retainSpec f s0 (seqOf l)).1
      rw [hseqL, hs']
    · show walkN (retainLoop f is.length st0).nodes
        (retainLoop f is.length st0).new_head
        (retainLoop f is.length st0).retained = (retainSpec f s0 (seqOf l)).2
      rw [hseqL, hret0, walkN_of_isFreeSeg hq', hvmap']
    · show (retainLoop f is.length st0).retained = (retainSpec f s0 (seqOf l)).2.length
      rw [hseqL, hret0, ← hvmap']
      simp
    · show (retainLoop f is.length st0).new_head = is'.head?
      exact hnh0
    · show (retainLoop f is.length st0).last_retain = is'.getLast?
      exact hlr0
    · show is'.map (valOf (retainLoop f is.length st0).nodes) = (retainSpec f s0 (seqOf l)).2
      rw [hseqL]
      exact hvmap'
    · show isFreeSeg (retainLoop f is.length st0).nodes
        (retainLoop f is.length st0).unused (ds ++ fs) none
      exact hfreeR

/-- The list `[1, 2, 3, 4]` built with capacity 4 (live chain `[0, 1, 2, 3]`,
empty free list), used to instantiate the `retain_map` theorem. -/
def exC4 : LinkedList Nat :=
  push_back 4 (push_back 3 (push_back 2 (push_back 1 (with_capacity 4))))

/-- Closure for the C4 witness: sums every value into its state, keeps ten
times the even values and drops the odd ones. -/
def exC4f (s v : Nat) : Nat × Option Nat :=
  (s + v, if v % 2 = 0 then some (v * 10) else none)

/-- Closed witness for C4: retaining the even elements of `[1, 2, 3, 4]`
(multiplied by ten) while summing all four values into the closure state. -/
theorem C4_retain_map_witness :
    WfWith exC4 [0, 1, 2, 3] [] ∧
      ((retain_map exC4f 0 exC4).2 = (retainSpec exC4f 0 (seqOf exC4)).1 ∧
      seqOf (retain_map exC4f 0 exC4).1 = (retainSpec exC4f 0 (seqOf exC4)).2 ∧
      (retain_map exC4f 0 exC4).1.len = (retainSpec exC4f 0 (seqOf exC4)).2.length ∧
      (retain_map exC4f 0 exC4).1.capacity = exC4.capacity ∧
      ∃ is' ds, is'.Sublist [0, 1, 2, 3] ∧ List.Perm (is' ++ ds) [0, 1, 2, 3] ∧
        (retain_map exC4f 0 exC4).1.head = is'.head? ∧
        (retain_map exC4f 0 exC4).1.tail = is'.getLast? ∧
        is'.map (valOf (retain_map exC4f 0 exC4).1.nodes) =
          (retainSpec exC4f 0 (seqOf exC4)).2 ∧
        isFreeSeg (retain_map exC4f 0 exC4).1.nodes
          (retain_map exC4f 0 exC4).1.unused_nodes (ds ++ []) none) :=
  ⟨by decide, C4_retain_map exC4 [0, 1, 2, 3] [] (by decide) exC4f 0⟩

end RustLL
